import Mathlib

/-! The breeding life-cycle event of quantiNEMO (`src/lce_breed.h`)

A shallow embedding of the inline member functions of class `LCE_Breed`:
the two mating-feasibility checks, the aggregate sex-ratio splits and the
per-offspring sex draws, the offspring-count models, the hook run before each
generation and the age-class declarations, followed by theorems about them.

Conventions of the embedding.

* A C++ `unsigned int` is a natural number below `2 ^ 32`; every operation that
  can leave that range is reduced modulo `2 ^ 32` explicitly.
* A C++ `double` is a rational number.  Every arithmetic operation on doubles
  is the exact operation followed by a rounding `fl : ℚ → ℚ`, which is a
  parameter of the functions that compute with doubles.  The theorems only
  use the properties collected in `IsDoubleRounding` and `IsNearestDouble`,
  which hold for the identity (exact arithmetic) and for `roundToDouble`,
  the rounding to the nearest double.
* The random generator `SimRunner::r` is external: its draws enter as
  function parameters (`Binomial`, `Poisson`).
* A failed `assert` aborts the run: the function returns `none`.
-/

namespace QuantiNemo

/-! ## Machine integers and doubles -/

/-- Conversion of an integer value to `unsigned int`: reduction modulo `2 ^ 32`. -/
def toUInt (z : ℤ) : ℕ := (z % (2 ^ 32 : ℤ)).toNat

/-- Subtraction of two `unsigned int` values, wrapping modulo `2 ^ 32`. -/
def usub (x y : ℕ) : ℕ := toUInt ((x : ℤ) - (y : ℤ))

/-- Addition of two `unsigned int` values, wrapping modulo `2 ^ 32`. -/
def uadd (x y : ℕ) : ℕ := (x + y) % 2 ^ 32

/-- What the proofs need to know of the rounding `fl` of an exact result to a
`double`: it is monotone, it leaves the natural numbers up to `2 ^ 53`
unchanged, and above `1` its relative error is at most `2 ^ (-53)`. -/
structure IsDoubleRounding (fl : ℚ → ℚ) : Prop where
  mono : ∀ x y : ℚ, x ≤ y → fl x ≤ fl y
  exact_nat : ∀ n : ℕ, n ≤ 2 ^ 53 → fl (n : ℚ) = (n : ℚ)
  rel_err : ∀ x : ℚ, 1 ≤ x → fl x ≤ x * (1 + 1 / 2 ^ 53)

/-- Further properties of rounding to the nearest `double`: the halves
`n + 1/2` with `n < 2 ^ 52` are doubles, and the relative error bound holds
from `1/4` on. -/
structure IsNearestDouble (fl : ℚ → ℚ) extends IsDoubleRounding fl : Prop where
  exact_half : ∀ n : ℕ, n < 2 ^ 52 → fl ((n : ℚ) + 1 / 2) = (n : ℚ) + 1 / 2
  rel_err_quarter : ∀ x : ℚ, 1 / 4 ≤ x → fl x ≤ x * (1 + 1 / 2 ^ 53)

/-- Rounding of a rational to the nearest integer, a tie going to the even
neighbour. -/
def roundHalfEven (y : ℚ) : ℤ :=
  if y - (⌊y⌋ : ℚ) < 1 / 2 then ⌊y⌋
  else if 1 / 2 < y - (⌊y⌋ : ℚ) then ⌊y⌋ + 1
  else if ⌊y⌋ % 2 = 0 then ⌊y⌋ else ⌊y⌋ + 1

/-- Rounding of a rational to the nearest IEEE 754 binary64 number, the `double`
of the usual platforms: 53 significant bits, ties to even. The exponent range
is not bounded: overflow and subnormal numbers are left out. It is the
rounding `fl` of the concrete evaluations, and it has the properties of
`IsNearestDouble`. -/
def roundToDouble (x : ℚ) : ℚ :=
  if x = 0 then 0
  else (roundHalfEven (x / 2 ^ (Int.log 2 |x| - 52)) : ℚ) * 2 ^ (Int.log 2 |x| - 52)

/-- Modelled from the spec: the helper `my_round` is called in `lce_breed.h` but
defined elsewhere in the repository. The spec writes it `round`: the nearest
integer, a half going away from zero. -/
def my_round (value : ℚ) : ℤ :=
  if value < 0 then -⌊-value + 1 / 2⌋ else ⌊value + 1 / 2⌋

/-! ## Sexes, age classes, patches -/

/-- The two sexes, `MAL = 0` and `FEM = 1`, used as array indices. -/
inductive sex_t where
  | MAL
  | FEM
  deriving DecidableEq, Repr

/-- Indices of the age classes the breeding event touches. -/
inductive age_idx where
  | OFFSx
  | ADLTx
  deriving DecidableEq, Repr

/-- An individual is known by its identity only (the C++ code handles `Individual*`). -/
abbrev Individual := ℕ

/-- Modelled from the spec: class `Patch` is declared outside `lce_breed.h`. The
spec describes a subpopulation holding individuals bucketed by sex and
age-class, with count queries and a clear operation on an age class. -/
structure Patch where
  offsMAL : List Individual
  offsFEM : List Individual
  adltMAL : List Individual
  adltFEM : List Individual
  deriving DecidableEq, Repr

/-- The container of a patch for a sex and an age class. -/
def Patch.get (p : Patch) : sex_t → age_idx → List Individual
  | .MAL, .OFFSx => p.offsMAL
  | .FEM, .OFFSx => p.offsFEM
  | .MAL, .ADLTx => p.adltMAL
  | .FEM, .ADLTx => p.adltFEM

/-- Modelled from the spec: `Patch::size(sex, age)`, the count query of one bucket. -/
def Patch.size (p : Patch) (s : sex_t) (a : age_idx) : ℕ := (p.get s a).length

/-- Modelled from the spec: `Patch::size(age)`, the count of both sexes of an age class. -/
def Patch.size_age (p : Patch) (a : age_idx) : ℕ :=
  p.size .MAL a + p.size .FEM a

/-- Modelled from the spec: `Patch::flush(age)`, the clear operation: both buckets
of the age class are emptied, the other age class is kept. -/
def Patch.flush (p : Patch) : age_idx → Patch
  | .OFFSx => { p with offsMAL := [], offsFEM := [] }
  | .ADLTx => { p with adltMAL := [], adltFEM := [] }

/-! ## The state of `LCE_Breed` -/

/-- The member variables of `LCE_Breed` read or written by the inline functions. -/
structure LCE_Breed where
  _threshold : ℚ
  _mean_fecundity : ℚ
  _sex_ratio : ℚ
  _nbIndividuals : sex_t → ℕ

/-- The assignment `_nbIndividuals[s] = n`. -/
def LCE_Breed.set_nbIndividuals (b : LCE_Breed) (s : sex_t) (n : ℕ) : LCE_Breed :=
  { b with _nbIndividuals := fun t => if t = s then n else b._nbIndividuals t }

/-! ## Mating-feasibility checks -/

/-- The member `isMatingPossbile_1_sex`: caches the number of adult females,
asserts that the patch has no adult male (`none` when the assertion fails),
caches `0` males, flushes the offspring when there are some, and returns
whether there is a female. The result holds the new state of the event, the
new state of the patch and the returned flag. -/
def isMatingPossbile_1_sex (b : LCE_Breed) (cur_patch : Patch) :
    Option (LCE_Breed × Patch × Bool) :=
  let b1 := b.set_nbIndividuals .FEM (cur_patch.size .FEM .ADLTx)
  if cur_patch.size .MAL .ADLTx ≠ 0 then none
  else
    let b2 := b1.set_nbIndividuals .MAL 0
    let p := if cur_patch.size_age .OFFSx ≠ 0 then cur_patch.flush .OFFSx else cur_patch
    some (b2, p, if b2._nbIndividuals .FEM ≠ 0 then true else false)

/-- The member `isMatingPossible_2_sex`: caches the numbers of adult females and
males, flushes the offspring when there are some, and returns whether both
sexes are present. -/
def isMatingPossible_2_sex (b : LCE_Breed) (cur_patch : Patch) :
    LCE_Breed × Patch × Bool :=
  let b1 := b.set_nbIndividuals .FEM (cur_patch.size .FEM .ADLTx)
  let b2 := b1.set_nbIndividuals .MAL (cur_patch.size .MAL .ADLTx)
  let p := if cur_patch.size_age .OFFSx ≠ 0 then cur_patch.flush .OFFSx else cur_patch
  (b2, p, if b2._nbIndividuals .FEM ≠ 0 ∧ b2._nbIndividuals .MAL ≠ 0 then true else false)

/-! ## Aggregate sex-ratio splits

Each function overwrites its two reference parameters `nbSons` and
`nbDaugthers` without reading them; the embedding returns the pair
`(nbSons, nbDaugthers)`. -/

/-- The member `setSexRatio_Selfing`. -/
def setSexRatio_Selfing (nbBaby _nbMAL _nbFEM : ℕ) : ℕ × ℕ :=
  let nbSons := 0
  let nbDaugthers := nbBaby
  (nbSons, nbDaugthers)

/-- The member `setSexRatio_NoSelfing`. `Binomial p n` is the value drawn by
`SimRunner::r.Binomial(p, n)`. -/
def setSexRatio_NoSelfing (b : LCE_Breed) (Binomial : ℚ → ℕ → ℚ)
    (nbBaby _nbMAL _nbFEM : ℕ) : ℕ × ℕ :=
  let nbSons := toUInt (my_round (Binomial b._sex_ratio nbBaby))
  let nbDaugthers := usub nbBaby nbSons
  (nbSons, nbDaugthers)

/-- The member `setSexRatio_KeepSexRatio`: `nbBaby * (double)nbMAL` is a product
of doubles, `nbMAL + nbFEM` a sum of `unsigned int`, their quotient a division
of doubles. A zero divisor gives no number: the embedding follows the
convention `x / 0 = 0` of `ℚ` there, and the theorems exclude that case. -/
def setSexRatio_KeepSexRatio (fl : ℚ → ℚ) (nbBaby nbMAL nbFEM : ℕ) : ℕ × ℕ :=
  let nbSons := toUInt (my_round (fl (fl ((nbBaby : ℚ) * (nbMAL : ℚ)) / (uadd nbMAL nbFEM : ℚ))))
  let nbDaugthers := usub nbBaby nbSons
  (nbSons, nbDaugthers)

/-! ## Offspring-count models -/

/-- The member `setNbOffspring_KeepNb`. -/
def setNbOffspring_KeepNb (nbMAL nbFEM _K : ℕ) : ℕ := uadd nbMAL nbFEM

/-- The member `setNbOffspring_CarryCapacity`. -/
def setNbOffspring_CarryCapacity (_nbMAL _nbFEM K : ℕ) : ℕ := K

/-- The member `setNbOffspring_Fecundity`. -/
def setNbOffspring_Fecundity (b : LCE_Breed) (fl : ℚ → ℚ) (_nbMAL nbFEM _K : ℕ) : ℕ :=
  toUInt (my_round (fl ((nbFEM : ℚ) * b._mean_fecundity)))

/-- The member `setNbOffspring_RandFecundity`. `Poisson m` is the value drawn by
`SimRunner::r.Poisson(m)`. -/
def setNbOffspring_RandFecundity (b : LCE_Breed) (fl : ℚ → ℚ) (Poisson : ℚ → ℕ)
    (_nbMAL nbFEM _K : ℕ) : ℕ :=
  Poisson (fl ((nbFEM : ℚ) * b._mean_fecundity)) % 2 ^ 32

/-! ## Per-offspring sex draws

`Uniform` is the value drawn by `SimRunner::r.Uniform()`, a double of `[0, 1)`. -/

/-- The member `getRandomSex_Selfing`: no draw is made. -/
def getRandomSex_Selfing (_nbMAL _nbFEM : ℕ) : sex_t := .FEM

/-- The member `getRandomSex_NoSelfing`. -/
def getRandomSex_NoSelfing (b : LCE_Breed) (Uniform : ℚ) (_nbMAL _nbFEM : ℕ) : sex_t :=
  if Uniform < b._sex_ratio then .MAL else .FEM

/-- The member `getRandomSex_KeepSexRatio`: `nbMAL + nbFEM` is a sum of
`unsigned int`, converted to a double, and the quotient is a division of
doubles. For a zero divisor see `setSexRatio_KeepSexRatio`. -/
def getRandomSex_KeepSexRatio (fl : ℚ → ℚ) (Uniform : ℚ) (nbMAL nbFEM : ℕ) : sex_t :=
  if Uniform < fl ((nbMAL : ℚ) / (uadd nbMAL nbFEM : ℚ)) then .MAL else .FEM

/-! ## The hook run before each generation -/

/-- The member `executeBeforeEachGeneration`. The macro `my_NAN` and the member
`reset_sex_after_phentoype`, both defined outside `lce_breed.h`, are parameters;
`σ` is the state the adjustment acts on. -/
def executeBeforeEachGeneration {σ : Type} (my_NAN : ℚ)
    (reset_sex_after_phentoype : age_idx → σ → σ) (b : LCE_Breed) (gen : ℤ) (pop : σ) : σ :=
  if gen = 1 ∧ b._threshold ≠ my_NAN then reset_sex_after_phentoype .ADLTx pop else pop

/-- Modelled from the spec: the outer driver is not among the sources. The spec
has it run the hook once before each generation; here for the generations
`1, 2, ..., G` of a run, in that order. -/
def run_generation_hooks {σ : Type} (my_NAN : ℚ)
    (reset_sex_after_phentoype : age_idx → σ → σ) (b : LCE_Breed) (G : ℕ) (pop : σ) : σ :=
  (List.range' 1 G).foldl
    (fun s (gen : ℕ) => executeBeforeEachGeneration my_NAN reset_sex_after_phentoype b (gen : ℤ) s)
    pop

/-! ## Age-class flags of the life-cycle event -/

/-- The type `age_t` of age-class flags, an unsigned integer. -/
abbrev age_t := ℕ

/-- The values of the macros `OFFSPRG` and `ADULTS`, defined outside `lce_breed.h`. -/
structure AgeFlags where
  OFFSPRG : age_t
  ADULTS : age_t

/-- The member `removeAgeClass`. -/
def removeAgeClass : age_t := 0

/-- The member `addAgeClass`. -/
def addAgeClass (flags : AgeFlags) : age_t := flags.OFFSPRG

/-- The member `requiredAgeClass`. -/
def requiredAgeClass (flags : AgeFlags) : age_t := flags.ADULTS

/-! ## Monogamous pairing -/

/-- Modelled from the spec: the drawing loop of `create_mating_pairs`, which is
declared in `lce_breed.h` and defined elsewhere. The spec forms disjoint (male,
female) pairs by drawing without replacement from the adult male and female
pools. `draw k` gives the two numbers drawn for a pair, reduced to positions
of the pools that are left; the drawn male and female leave their pools. -/
def draw_pairs (draw : ℕ → ℕ × ℕ) :
    ℕ → List Individual → List Individual → List (Individual × Individual)
  | 0, _, _ => []
  | n + 1, males, females =>
    let i := (draw n).1 % males.length
    let j := (draw n).2 % females.length
    match males[i]?, females[j]? with
    | some m, some f => (m, f) :: draw_pairs draw n (males.eraseIdx i) (females.eraseIdx j)
    | _, _ => []

/-- Modelled from the spec: `create_mating_pairs`, declared in `lce_breed.h` and
defined elsewhere. The spec builds the pairs of a patch afresh, as many as the
smaller of the numbers of adult males and adult females. The result is the
list of (male, female) pairs, that is `_aMatingPairs`, and `nbPairs`. -/
def create_mating_pairs (draw : ℕ → ℕ × ℕ) (cur_patch : Patch) :
    List (Individual × Individual) × ℕ :=
  let nbPairs := min (cur_patch.size .MAL .ADLTx) (cur_patch.size .FEM .ADLTx)
  (draw_pairs draw nbPairs (cur_patch.get .MAL .ADLTx) (cur_patch.get .FEM .ADLTx), nbPairs)

/-! ## Auxiliary lemmas -/

theorem toUInt_of_range (z : ℤ) (h0 : 0 ≤ z) (h1 : z < 2 ^ 32) : (toUInt z : ℤ) = z := by
  unfold toUInt
  rw [Int.emod_eq_of_lt h0 h1]
  exact Int.toNat_of_nonneg h0

theorem toUInt_natCast (n : ℕ) (h : n < 2 ^ 32) : toUInt (n : ℤ) = n := by
  have h1 : (toUInt (n : ℤ) : ℤ) = (n : ℤ) :=
    toUInt_of_range (n : ℤ) (Int.natCast_nonneg n) (by exact_mod_cast h)
  exact_mod_cast h1

theorem my_round_of_nonneg (x : ℚ) (h : 0 ≤ x) : my_round x = ⌊x + 1 / 2⌋ := by
  unfold my_round
  rw [if_neg (not_lt.mpr h)]

theorem my_round_eq_round (x : ℚ) (h : 0 ≤ x) : my_round x = round x := by
  rw [my_round_of_nonneg x h, round_eq]

theorem my_round_nonneg (x : ℚ) (h : 0 ≤ x) : 0 ≤ my_round x := by
  rw [my_round_of_nonneg x h]
  exact Int.floor_nonneg.mpr (by linarith)

theorem my_round_le_of_lt (x : ℚ) (n : ℕ) (h0 : 0 ≤ x) (h : x < (n : ℚ) + 1 / 2) :
    my_round x ≤ (n : ℤ) := by
  rw [my_round_of_nonneg x h0]
  have h1 : ⌊x + 1 / 2⌋ < (n : ℤ) + 1 := by
    rw [Int.floor_lt]
    push_cast
    linarith
  omega

theorem IsDoubleRounding.zero {fl : ℚ → ℚ} (hfl : IsDoubleRounding fl) : fl 0 = 0 := by
  have h := hfl.exact_nat 0 (by norm_num)
  simpa using h

theorem IsDoubleRounding.nonneg {fl : ℚ → ℚ} (hfl : IsDoubleRounding fl) (x : ℚ) (h : 0 ≤ x) :
    0 ≤ fl x := by
  have h1 := hfl.mono 0 x h
  rwa [hfl.zero] at h1

theorem isDoubleRounding_id : IsDoubleRounding (fun x : ℚ => x) where
  mono := fun _ _ h => h
  exact_nat := fun _ _ => rfl
  rel_err := fun x hx => by
    have h : (0 : ℚ) ≤ x * (1 / 2 ^ 53) := by positivity
    linarith

theorem size_age_eq_zero_iff (p : Patch) (a : age_idx) :
    p.size_age a = 0 ↔ ∀ s : sex_t, p.get s a = [] := by
  unfold Patch.size_age Patch.size
  constructor
  · intro h s
    cases s
    · exact List.length_eq_zero.mp (by omega)
    · exact List.length_eq_zero.mp (by omega)
  · intro h
    rw [h .MAL, h .FEM]
    rfl

/-- The conditional flush `if(cur_patch->size(OFFSx)) cur_patch->flush(OFFSx);`
keeps the adult buckets. -/
theorem flush_offspring_adults (p : Patch) (s : sex_t) :
    (if p.size_age .OFFSx ≠ 0 then p.flush .OFFSx else p).get s .ADLTx = p.get s .ADLTx := by
  split
  · cases s <;> rfl
  · rfl

/-- The conditional flush leaves both offspring buckets empty. -/
theorem flush_offspring_offs (p : Patch) (s : sex_t) :
    (if p.size_age .OFFSx ≠ 0 then p.flush .OFFSx else p).get s .OFFSx = [] := by
  split
  · cases s <;> rfl
  · rename_i h
    exact (size_age_eq_zero_iff p .OFFSx).mp (not_not.mp h) s

theorem isMatingPossbile_1_sex_of_no_male (b : LCE_Breed) (p : Patch)
    (h : p.size .MAL .ADLTx = 0) :
    isMatingPossbile_1_sex b p =
      some ((b.set_nbIndividuals .FEM (p.size .FEM .ADLTx)).set_nbIndividuals .MAL 0,
        (if p.size_age .OFFSx ≠ 0 then p.flush .OFFSx else p),
        (if p.size .FEM .ADLTx ≠ 0 then true else false)) := by
  simp [isMatingPossbile_1_sex, h, LCE_Breed.set_nbIndividuals]

theorem isMatingPossbile_1_sex_of_male (b : LCE_Breed) (p : Patch)
    (h : p.size .MAL .ADLTx ≠ 0) : isMatingPossbile_1_sex b p = none := by
  simp [isMatingPossbile_1_sex, h]

/-- A rounded count between `0` and `nbBaby` is split without wrapping. -/
theorem split_conserves (nbBaby : ℕ) (r : ℤ) (h0 : 0 ≤ r) (h1 : r ≤ (nbBaby : ℤ))
    (hB : nbBaby < 2 ^ 32) :
    toUInt r + usub nbBaby (toUInt r) = nbBaby ∧ toUInt r ≤ nbBaby := by
  have hB' : (nbBaby : ℤ) < 2 ^ 32 := by exact_mod_cast hB
  have hr : (toUInt r : ℤ) = r := toUInt_of_range r h0 (by omega)
  have hd : (usub nbBaby (toUInt r) : ℤ) = (nbBaby : ℤ) - r := by
    unfold usub
    rw [hr]
    exact toUInt_of_range _ (by omega) (by omega)
  constructor
  · have h : ((toUInt r + usub nbBaby (toUInt r) : ℕ) : ℤ) = (nbBaby : ℤ) := by
      push_cast
      rw [hr, hd]
      ring
    exact_mod_cast h
  · have h : (toUInt r : ℤ) ≤ (nbBaby : ℤ) := by rw [hr]; exact h1
    exact_mod_cast h

/-- The double computed by `setSexRatio_KeepSexRatio` before rounding lies in
`[0, nbBaby + 1/2)`. -/
theorem keepSexRatio_quotient_bound (fl : ℚ → ℚ) (hfl : IsDoubleRounding fl)
    (nbBaby nbMAL nbFEM : ℕ) (hB : nbBaby < 2 ^ 32) (hpos : 1 ≤ nbMAL + nbFEM)
    (hsum : nbMAL + nbFEM < 2 ^ 32) :
    0 ≤ fl (fl ((nbBaby : ℚ) * (nbMAL : ℚ)) / (uadd nbMAL nbFEM : ℚ)) ∧
      fl (fl ((nbBaby : ℚ) * (nbMAL : ℚ)) / (uadd nbMAL nbFEM : ℚ)) < (nbBaby : ℚ) + 1 / 2 := by
  have hs : uadd nbMAL nbFEM = nbMAL + nbFEM := Nat.mod_eq_of_lt hsum
  rw [hs]
  have hsq : (0 : ℚ) < ((nbMAL + nbFEM : ℕ) : ℚ) := by exact_mod_cast hpos
  have hbs : (nbMAL : ℚ) ≤ ((nbMAL + nbFEM : ℕ) : ℚ) := by
    exact_mod_cast Nat.le_add_right nbMAL nbFEM
  have ha0 : (0 : ℚ) ≤ (nbBaby : ℚ) := Nat.cast_nonneg nbBaby
  have hb0 : (0 : ℚ) ≤ (nbMAL : ℚ) := Nat.cast_nonneg nbMAL
  have hp0 : 0 ≤ fl ((nbBaby : ℚ) * (nbMAL : ℚ)) := hfl.nonneg _ (mul_nonneg ha0 hb0)
  constructor
  · exact hfl.nonneg _ (div_nonneg hp0 hsq.le)
  · rcases Nat.eq_zero_or_pos (nbBaby * nbMAL) with h0 | h1
    · have hz : (nbBaby : ℚ) * (nbMAL : ℚ) = 0 := by exact_mod_cast h0
      rw [hz, hfl.zero, zero_div, hfl.zero]
      linarith
    · have hab : (1 : ℚ) ≤ (nbBaby : ℚ) * (nbMAL : ℚ) := by exact_mod_cast h1
      have ha1 : (1 : ℚ) ≤ (nbBaby : ℚ) := by
        have : 1 ≤ nbBaby := Nat.pos_of_mul_pos_right h1
        exact_mod_cast this
      have haU : (nbBaby : ℚ) ≤ 2 ^ 32 := by exact_mod_cast hB.le
      have hp : fl ((nbBaby : ℚ) * (nbMAL : ℚ))
          ≤ (nbBaby : ℚ) * (nbMAL : ℚ) * (1 + 1 / 2 ^ 53) := hfl.rel_err _ hab
      have hy : fl ((nbBaby : ℚ) * (nbMAL : ℚ)) / ((nbMAL + nbFEM : ℕ) : ℚ)
          ≤ (nbBaby : ℚ) * (1 + 1 / 2 ^ 53) := by
        rw [div_le_iff₀ hsq]
        have h3 : (nbBaby : ℚ) * (nbMAL : ℚ) * (1 + 1 / 2 ^ 53)
            ≤ (nbBaby : ℚ) * (1 + 1 / 2 ^ 53) * ((nbMAL + nbFEM : ℕ) : ℚ) := by
          have h4 : (nbBaby : ℚ) * (1 + 1 / 2 ^ 53) * (nbMAL : ℚ)
              ≤ (nbBaby : ℚ) * (1 + 1 / 2 ^ 53) * ((nbMAL + nbFEM : ℕ) : ℚ) :=
            mul_le_mul_of_nonneg_left hbs (by positivity)
          calc (nbBaby : ℚ) * (nbMAL : ℚ) * (1 + 1 / 2 ^ 53)
              = (nbBaby : ℚ) * (1 + 1 / 2 ^ 53) * (nbMAL : ℚ) := by ring
            _ ≤ _ := h4
        exact le_trans hp h3
      have hY1 : (1 : ℚ) ≤ (nbBaby : ℚ) * (1 + 1 / 2 ^ 53) := by
        have : (0 : ℚ) ≤ (nbBaby : ℚ) * (1 / 2 ^ 53) := by positivity
        linarith
      have hq1 := hfl.mono _ _ hy
      have hq2 := hfl.rel_err _ hY1
      have hexp : (nbBaby : ℚ) * (1 + 1 / 2 ^ 53) * (1 + 1 / 2 ^ 53)
          = (nbBaby : ℚ) + (nbBaby : ℚ) * (2 / 2 ^ 53 + 1 / 2 ^ 106) := by ring
      have hsmall : (nbBaby : ℚ) * (2 / 2 ^ 53 + 1 / 2 ^ 106)
          ≤ 2 ^ 32 * (2 / 2 ^ 53 + 1 / 2 ^ 106) :=
        mul_le_mul_of_nonneg_right haU (by positivity)
      have hnum : (2 : ℚ) ^ 32 * (2 / 2 ^ 53 + 1 / 2 ^ 106) < 1 / 2 := by norm_num
      linarith

/-- The count returned by the deterministic fecundity model, as long as it fits an
`unsigned int`, is the nearest integer to the double product. -/
theorem fecundity_count (fl : ℚ → ℚ) (hfl : IsDoubleRounding fl) (mf : ℚ) (nbFEM : ℕ)
    (hmf : 0 ≤ mf) (hr : round (fl ((nbFEM : ℚ) * mf)) < 2 ^ 32) :
    (toUInt (my_round (fl ((nbFEM : ℚ) * mf))) : ℤ) = round (fl ((nbFEM : ℚ) * mf)) := by
  have h0 : 0 ≤ fl ((nbFEM : ℚ) * mf) := hfl.nonneg _ (mul_nonneg (Nat.cast_nonneg nbFEM) hmf)
  have h1 := my_round_nonneg _ h0
  rw [← my_round_eq_round _ h0] at hr ⊢
  exact toUInt_of_range _ h1 hr

theorem my_round_natCast (n : ℕ) : my_round (n : ℚ) = (n : ℤ) := by
  rw [my_round_of_nonneg _ (Nat.cast_nonneg n), Int.floor_eq_iff]
  constructor
  · push_cast
    linarith
  · push_cast
    linarith

/-! ## Theorems -/

/-- C2: the KeepNumber model returns `nbMAL + nbFEM` exactly, whatever the capacity
`K` is, for all adult counts whose sum is an `unsigned int`. -/
theorem setNbOffspring_KeepNb_eq (nbMAL nbFEM K : ℕ) (h : nbMAL + nbFEM < 2 ^ 32) :
    setNbOffspring_KeepNb nbMAL nbFEM K = nbMAL + nbFEM := by
  unfold setNbOffspring_KeepNb uadd
  exact Nat.mod_eq_of_lt h

/-- Witness of C2: 3 males and 5 females give 8 offspring (with `K = 20`). -/
theorem setNbOffspring_KeepNb_eq_witness :
    3 + 5 < 2 ^ 32 ∧ setNbOffspring_KeepNb 3 5 20 = 3 + 5 :=
  ⟨by decide, setNbOffspring_KeepNb_eq 3 5 20 (by decide)⟩

/-- C3: the two-sex feasibility check returns true if and only if the patch has at
least one adult female and at least one adult male. -/
theorem isMatingPossible_2_sex_iff (b : LCE_Breed) (p : Patch) :
    (isMatingPossible_2_sex b p).2.2 = true ↔
      (1 ≤ p.size .FEM .ADLTx ∧ 1 ≤ p.size .MAL .ADLTx) := by
  simp [isMatingPossible_2_sex, LCE_Breed.set_nbIndividuals, Nat.one_le_iff_ne_zero]

/-- Counterexample to C4 as stated: a patch with no adult female and one adult male.
The one-sex check does not report infeasible there, its assertion aborts. -/
theorem isMatingPossbile_1_sex_no_female_abort :
    Patch.size ⟨[7], [], [1], []⟩ .FEM .ADLTx = 0 ∧
      ¬ ∃ b' p', isMatingPossbile_1_sex ⟨0, 3, 1 / 2, fun _ => 0⟩ ⟨[7], [], [1], []⟩
          = some (b', p', false) ∧ p'.size_age .OFFSx = 0 := by
  refine ⟨rfl, ?_⟩
  rw [isMatingPossbile_1_sex_of_male _ _ (by decide)]
  simp

/-- C4 (amended): for every patch with no adult female, the two-sex check returns
false and leaves the offspring bucket empty; the one-sex check does the same
provided the patch has no adult male. -/
theorem no_female_infeasible (b : LCE_Breed) (p : Patch) (hF : p.size .FEM .ADLTx = 0) :
    ((isMatingPossible_2_sex b p).2.2 = false ∧
      (isMatingPossible_2_sex b p).2.1.size_age .OFFSx = 0) ∧
    (p.size .MAL .ADLTx = 0 →
      ∃ b' p', isMatingPossbile_1_sex b p = some (b', p', false) ∧ p'.size_age .OFFSx = 0) := by
  refine ⟨⟨?_, ?_⟩, ?_⟩
  · simp [isMatingPossible_2_sex, LCE_Breed.set_nbIndividuals, hF]
  · rw [size_age_eq_zero_iff]
    intro s
    exact flush_offspring_offs p s
  · intro hM
    refine ⟨(b.set_nbIndividuals .FEM (p.size .FEM .ADLTx)).set_nbIndividuals .MAL 0,
      (if p.size_age .OFFSx ≠ 0 then p.flush .OFFSx else p), ?_, ?_⟩
    · rw [isMatingPossbile_1_sex_of_no_male b p hM]
      simp [hF]
    · rw [size_age_eq_zero_iff]
      intro s
      exact flush_offspring_offs p s

/-- Witness of C4 (amended): a patch without adults that still holds two offspring. -/
theorem no_female_infeasible_witness :
    Patch.size ⟨[7], [8], [], []⟩ .FEM .ADLTx = 0 ∧
    (((isMatingPossible_2_sex ⟨0, 3, 1 / 2, fun _ => 0⟩ ⟨[7], [8], [], []⟩).2.2 = false ∧
      (isMatingPossible_2_sex ⟨0, 3, 1 / 2, fun _ => 0⟩ ⟨[7], [8], [], []⟩).2.1.size_age .OFFSx = 0) ∧
    (Patch.size ⟨[7], [8], [], []⟩ .MAL .ADLTx = 0 →
      ∃ b' p', isMatingPossbile_1_sex ⟨0, 3, 1 / 2, fun _ => 0⟩ ⟨[7], [8], [], []⟩
          = some (b', p', false) ∧ p'.size_age .OFFSx = 0)) :=
  ⟨rfl, no_female_infeasible ⟨0, 3, 1 / 2, fun _ => 0⟩ ⟨[7], [8], [], []⟩ rfl⟩

/-- Counterexample to C5 as stated: on a patch without adults that still holds two
offspring both checks report infeasible, and the patch they leave differs from
the patch they were given: the offspring are gone. -/
theorem infeasible_flushes_offspring :
    ((isMatingPossible_2_sex ⟨0, 3, 1 / 2, fun _ => 0⟩ ⟨[7], [8], [], []⟩).2.2 = false ∧
      (isMatingPossible_2_sex ⟨0, 3, 1 / 2, fun _ => 0⟩ ⟨[7], [8], [], []⟩).2.1
        ≠ ⟨[7], [8], [], []⟩) ∧
    ∃ b', isMatingPossbile_1_sex ⟨0, 3, 1 / 2, fun _ => 0⟩ ⟨[7], [8], [], []⟩
        = some (b', ⟨[], [], [], []⟩, false) := by
  refine ⟨⟨?_, ?_⟩, ?_⟩
  · simp [isMatingPossible_2_sex, LCE_Breed.set_nbIndividuals, Patch.size, Patch.get]
  · simp [isMatingPossible_2_sex, Patch.size_age, Patch.size, Patch.get, Patch.flush]
  · refine ⟨(LCE_Breed.set_nbIndividuals ⟨0, 3, 1 / 2, fun _ => 0⟩ .FEM 0).set_nbIndividuals
      .MAL 0, ?_⟩
    rw [isMatingPossbile_1_sex_of_no_male ⟨0, 3, 1 / 2, fun _ => 0⟩ ⟨[7], [8], [], []⟩ rfl]
    simp [Patch.size_age, Patch.size, Patch.get, Patch.flush]

/-- C5 (amended): when a feasibility check reports infeasible, the adult buckets of
the patch are the same after the check as before it, and the offspring buckets
are empty: offspring left from a prior use are discarded. -/
theorem infeasible_frame (b : LCE_Breed) (p : Patch) :
    ((isMatingPossible_2_sex b p).2.2 = false →
      ∀ s, (isMatingPossible_2_sex b p).2.1.get s .ADLTx = p.get s .ADLTx ∧
        (isMatingPossible_2_sex b p).2.1.get s .OFFSx = []) ∧
    (∀ b' p', isMatingPossbile_1_sex b p = some (b', p', false) →
      ∀ s, p'.get s .ADLTx = p.get s .ADLTx ∧ p'.get s .OFFSx = []) := by
  refine ⟨?_, ?_⟩
  · intro _ s
    exact ⟨flush_offspring_adults p s, flush_offspring_offs p s⟩
  · intro b' p' h s
    by_cases hM : p.size .MAL .ADLTx = 0
    · rw [isMatingPossbile_1_sex_of_no_male b p hM] at h
      simp only [Option.some.injEq, Prod.mk.injEq] at h
      rw [← h.2.1]
      exact ⟨flush_offspring_adults p s, flush_offspring_offs p s⟩
    · rw [isMatingPossbile_1_sex_of_male b p hM] at h
      exact absurd h (by simp)

/-- Witness of C5 (amended): the two-sex check on a patch with one adult male, no
adult female and two leftover offspring. -/
theorem infeasible_frame_witness :
    (isMatingPossible_2_sex ⟨0, 3, 1 / 2, fun _ => 0⟩ ⟨[7], [8], [1], []⟩).2.2 = false ∧
    ∀ s, (isMatingPossible_2_sex ⟨0, 3, 1 / 2, fun _ => 0⟩ ⟨[7], [8], [1], []⟩).2.1.get s .ADLTx
        = Patch.get ⟨[7], [8], [1], []⟩ s .ADLTx ∧
      (isMatingPossible_2_sex ⟨0, 3, 1 / 2, fun _ => 0⟩ ⟨[7], [8], [1], []⟩).2.1.get s .OFFSx = [] :=
  have h : (isMatingPossible_2_sex ⟨0, 3, 1 / 2, fun _ => 0⟩ ⟨[7], [8], [1], []⟩).2.2 = false := by
    simp [isMatingPossible_2_sex, LCE_Breed.set_nbIndividuals, Patch.size, Patch.get]
  ⟨h, (infeasible_frame ⟨0, 3, 1 / 2, fun _ => 0⟩ ⟨[7], [8], [1], []⟩).1 h⟩

/-- C1: each aggregate sex-ratio split conserves the count: `nbSons + nbDaugthers`
is `nbBaby` and `nbSons ≤ nbBaby`, for a total `nbBaby` that is an `unsigned int`.
The fixed-ratio split assumes a binomial draw in `[0, nbBaby]`, the
proportional split `1 ≤ nbMAL + nbFEM` with a sum that does not overflow. -/
theorem setSexRatio_conserves (b : LCE_Breed) (fl : ℚ → ℚ) (Binomial : ℚ → ℕ → ℚ)
    (nbBaby nbMAL nbFEM : ℕ) (hfl : IsDoubleRounding fl) (hB : nbBaby < 2 ^ 32) :
    ((setSexRatio_Selfing nbBaby nbMAL nbFEM).1 + (setSexRatio_Selfing nbBaby nbMAL nbFEM).2
        = nbBaby ∧ (setSexRatio_Selfing nbBaby nbMAL nbFEM).1 ≤ nbBaby) ∧
    (0 ≤ Binomial b._sex_ratio nbBaby → Binomial b._sex_ratio nbBaby ≤ (nbBaby : ℚ) →
      (setSexRatio_NoSelfing b Binomial nbBaby nbMAL nbFEM).1
          + (setSexRatio_NoSelfing b Binomial nbBaby nbMAL nbFEM).2 = nbBaby ∧
        (setSexRatio_NoSelfing b Binomial nbBaby nbMAL nbFEM).1 ≤ nbBaby) ∧
    (1 ≤ nbMAL + nbFEM → nbMAL + nbFEM < 2 ^ 32 →
      (setSexRatio_KeepSexRatio fl nbBaby nbMAL nbFEM).1
          + (setSexRatio_KeepSexRatio fl nbBaby nbMAL nbFEM).2 = nbBaby ∧
        (setSexRatio_KeepSexRatio fl nbBaby nbMAL nbFEM).1 ≤ nbBaby) := by
  refine ⟨⟨?_, ?_⟩, ?_, ?_⟩
  · simp [setSexRatio_Selfing]
  · simp [setSexRatio_Selfing]
  · intro h0 h1
    have hr0 := my_round_nonneg _ h0
    have hr1 := my_round_le_of_lt _ nbBaby h0 (by linarith)
    exact split_conserves nbBaby _ hr0 hr1 hB
  · intro hpos hsum
    obtain ⟨h0, h1⟩ := keepSexRatio_quotient_bound fl hfl nbBaby nbMAL nbFEM hB hpos hsum
    have hr0 := my_round_nonneg _ h0
    have hr1 := my_round_le_of_lt _ nbBaby h0 h1
    exact split_conserves nbBaby _ hr0 hr1 hB

/-- Witness of C1: 8 offspring of 3 males and 5 females, exact arithmetic and a
binomial draw of 4 sons. -/
theorem setSexRatio_conserves_witness :
    ((setSexRatio_Selfing 8 3 5).1 + (setSexRatio_Selfing 8 3 5).2 = 8 ∧
      (setSexRatio_Selfing 8 3 5).1 ≤ 8) ∧
    ((setSexRatio_NoSelfing ⟨0, 3, 1 / 2, fun _ => 0⟩ (fun _ _ => 4) 8 3 5).1
        + (setSexRatio_NoSelfing ⟨0, 3, 1 / 2, fun _ => 0⟩ (fun _ _ => 4) 8 3 5).2 = 8 ∧
      (setSexRatio_NoSelfing ⟨0, 3, 1 / 2, fun _ => 0⟩ (fun _ _ => 4) 8 3 5).1 ≤ 8) ∧
    ((setSexRatio_KeepSexRatio (fun x => x) 8 3 5).1
        + (setSexRatio_KeepSexRatio (fun x => x) 8 3 5).2 = 8 ∧
      (setSexRatio_KeepSexRatio (fun x => x) 8 3 5).1 ≤ 8) :=
  have h := setSexRatio_conserves ⟨0, 3, 1 / 2, fun _ => 0⟩ (fun x => x) (fun _ _ => 4) 8 3 5
    isDoubleRounding_id (by norm_num)
  ⟨h.1, h.2.1 (by norm_num) (by norm_num), h.2.2 (by norm_num) (by norm_num)⟩

/-- C6: the one-sex feasibility check fails its assertion if and only if the patch
has at least one adult male; without adult males it returns true exactly when
there is at least one adult female, and the cached male count is 0. -/
theorem isMatingPossbile_1_sex_assert (b : LCE_Breed) (p : Patch) :
    (isMatingPossbile_1_sex b p = none ↔ 1 ≤ p.size .MAL .ADLTx) ∧
    (p.size .MAL .ADLTx = 0 →
      ∃ b' p', isMatingPossbile_1_sex b p = some (b', p', decide (1 ≤ p.size .FEM .ADLTx)) ∧
        b'._nbIndividuals .MAL = 0) := by
  constructor
  · constructor
    · intro h
      by_contra hM
      have hM0 : p.size .MAL .ADLTx = 0 := by omega
      rw [isMatingPossbile_1_sex_of_no_male b p hM0] at h
      exact absurd h (by simp)
    · intro h
      exact isMatingPossbile_1_sex_of_male b p (by omega)
  · intro hM
    refine ⟨(b.set_nbIndividuals .FEM (p.size .FEM .ADLTx)).set_nbIndividuals .MAL 0,
      (if p.size_age .OFFSx ≠ 0 then p.flush .OFFSx else p), ?_, ?_⟩
    · rw [isMatingPossbile_1_sex_of_no_male b p hM]
      simp [Nat.one_le_iff_ne_zero]
    · simp [LCE_Breed.set_nbIndividuals]

/-- Witness of C6: a patch of three adult females without males. -/
theorem isMatingPossbile_1_sex_assert_witness :
    Patch.size ⟨[], [], [], [3, 4, 5]⟩ .MAL .ADLTx = 0 ∧
    ∃ b' p', isMatingPossbile_1_sex ⟨0, 3, 1 / 2, fun _ => 9⟩ ⟨[], [], [], [3, 4, 5]⟩
        = some (b', p', decide (1 ≤ Patch.size ⟨[], [], [], [3, 4, 5]⟩ .FEM .ADLTx)) ∧
      b'._nbIndividuals .MAL = 0 :=
  ⟨rfl, (isMatingPossbile_1_sex_assert ⟨0, 3, 1 / 2, fun _ => 9⟩ ⟨[], [], [], [3, 4, 5]⟩).2 rfl⟩

/-- C7: after a feasibility check that returns true, in either mode, the cached
counts are the numbers of adult females and adult males of the patch, the
offspring bucket is empty and the adult buckets are those the patch had. -/
theorem feasible_caches_and_flushes (b b' : LCE_Breed) (p p' : Patch) :
    (isMatingPossbile_1_sex b p = some (b', p', true) →
      b'._nbIndividuals .FEM = p.size .FEM .ADLTx ∧
      b'._nbIndividuals .MAL = p.size .MAL .ADLTx ∧
      p'.size_age .OFFSx = 0 ∧ ∀ s, p'.get s .ADLTx = p.get s .ADLTx) ∧
    (isMatingPossible_2_sex b p = (b', p', true) →
      b'._nbIndividuals .FEM = p.size .FEM .ADLTx ∧
      b'._nbIndividuals .MAL = p.size .MAL .ADLTx ∧
      p'.size_age .OFFSx = 0 ∧ ∀ s, p'.get s .ADLTx = p.get s .ADLTx) := by
  constructor
  · intro h
    by_cases hM : p.size .MAL .ADLTx = 0
    · rw [isMatingPossbile_1_sex_of_no_male b p hM] at h
      simp only [Option.some.injEq, Prod.mk.injEq] at h
      obtain ⟨hb, hp, _⟩ := h
      subst hb
      subst hp
      refine ⟨by simp [LCE_Breed.set_nbIndividuals], by simp [LCE_Breed.set_nbIndividuals, hM],
        ?_, fun s => flush_offspring_adults p s⟩
      rw [size_age_eq_zero_iff]
      exact fun s => flush_offspring_offs p s
    · rw [isMatingPossbile_1_sex_of_male b p hM] at h
      exact absurd h (by simp)
  · intro h
    unfold isMatingPossible_2_sex at h
    simp only [Prod.mk.injEq] at h
    obtain ⟨hb, hp, _⟩ := h
    subst hb
    subst hp
    refine ⟨by simp [LCE_Breed.set_nbIndividuals], by simp [LCE_Breed.set_nbIndividuals],
      ?_, fun s => flush_offspring_adults p s⟩
    rw [size_age_eq_zero_iff]
    exact fun s => flush_offspring_offs p s

/-- C10: the CarryingCapacity model returns `K` whatever the adult counts are; 4
males and 6 females with `K = 20` give 20. -/
theorem setNbOffspring_CarryCapacity_eq (nbMAL nbFEM K : ℕ) :
    setNbOffspring_CarryCapacity nbMAL nbFEM K = K ∧
      setNbOffspring_CarryCapacity 4 6 20 = 20 :=
  ⟨rfl, rfl⟩

/-- Witness of C7: a patch of two adult males, three adult females and two leftover
offspring under the two-sex check, and a patch of three adult females and one
leftover offspring under the one-sex check. -/
theorem feasible_caches_and_flushes_witness :
    ((isMatingPossible_2_sex ⟨0, 3, 1 / 2, fun _ => 9⟩ ⟨[7], [8], [1, 2], [3, 4, 5]⟩).1._nbIndividuals
        .FEM = Patch.size ⟨[7], [8], [1, 2], [3, 4, 5]⟩ .FEM .ADLTx ∧
      (isMatingPossible_2_sex ⟨0, 3, 1 / 2, fun _ => 9⟩ ⟨[7], [8], [1, 2], [3, 4, 5]⟩).1._nbIndividuals
        .MAL = Patch.size ⟨[7], [8], [1, 2], [3, 4, 5]⟩ .MAL .ADLTx ∧
      Patch.size_age ⟨[], [], [1, 2], [3, 4, 5]⟩ .OFFSx = 0 ∧
      ∀ s, Patch.get ⟨[], [], [1, 2], [3, 4, 5]⟩ s .ADLTx
        = Patch.get ⟨[7], [8], [1, 2], [3, 4, 5]⟩ s .ADLTx) ∧
    (Patch.size_age ⟨[], [], [], [3, 4, 5]⟩ .OFFSx = 0 ∧
      ∀ s, Patch.get ⟨[], [], [], [3, 4, 5]⟩ s .ADLTx
        = Patch.get ⟨[7], [], [], [3, 4, 5]⟩ s .ADLTx) :=
  ⟨(feasible_caches_and_flushes ⟨0, 3, 1 / 2, fun _ => 9⟩
      (isMatingPossible_2_sex ⟨0, 3, 1 / 2, fun _ => 9⟩ ⟨[7], [8], [1, 2], [3, 4, 5]⟩).1
      ⟨[7], [8], [1, 2], [3, 4, 5]⟩ ⟨[], [], [1, 2], [3, 4, 5]⟩).2
      (by simp [isMatingPossible_2_sex, LCE_Breed.set_nbIndividuals, Patch.size, Patch.get,
        Patch.size_age, Patch.flush]),
    ((feasible_caches_and_flushes ⟨0, 3, 1 / 2, fun _ => 9⟩
      ((LCE_Breed.set_nbIndividuals ⟨0, 3, 1 / 2, fun _ => 9⟩ .FEM 3).set_nbIndividuals .MAL 0)
      ⟨[7], [], [], [3, 4, 5]⟩ ⟨[], [], [], [3, 4, 5]⟩).1
      (by
        rw [isMatingPossbile_1_sex_of_no_male ⟨0, 3, 1 / 2, fun _ => 9⟩
          ⟨[7], [], [], [3, 4, 5]⟩ rfl]
        simp [Patch.size, Patch.get, Patch.size_age, Patch.flush])).2.2⟩

/-- C8: the deterministic fecundity model returns `round (nbFEM × meanFecundity)`,
the product being the one of doubles, whatever the number of males and `K`
are, as long as that count is an `unsigned int`; when the product is computed
exactly it is the rounded exact product, and 10 females with a mean fecundity
of 3 give 30. -/
theorem setNbOffspring_Fecundity_round (b : LCE_Breed) (fl : ℚ → ℚ) (nbMAL nbFEM K : ℕ)
    (hfl : IsDoubleRounding fl) (hmf : 0 ≤ b._mean_fecundity)
    (hr : round (fl ((nbFEM : ℚ) * b._mean_fecundity)) < 2 ^ 32) :
    ((setNbOffspring_Fecundity b fl nbMAL nbFEM K : ℕ) : ℤ)
        = round (fl ((nbFEM : ℚ) * b._mean_fecundity)) ∧
    (fl ((nbFEM : ℚ) * b._mean_fecundity) = (nbFEM : ℚ) * b._mean_fecundity →
      ((setNbOffspring_Fecundity b fl nbMAL nbFEM K : ℕ) : ℤ)
        = round ((nbFEM : ℚ) * b._mean_fecundity)) ∧
    (∀ nbMAL' K', setNbOffspring_Fecundity b fl nbMAL' nbFEM K'
        = setNbOffspring_Fecundity b fl nbMAL nbFEM K) ∧
    (nbFEM = 10 → b._mean_fecundity = 3 → setNbOffspring_Fecundity b fl nbMAL nbFEM K = 30) := by
  have h := fecundity_count fl hfl b._mean_fecundity nbFEM hmf hr
  refine ⟨h, ?_, fun _ _ => rfl, ?_⟩
  · intro hex
    rw [← hex]
    exact h
  · intro hF hM
    unfold setNbOffspring_Fecundity
    rw [hF, hM]
    have h30 : ((10 : ℕ) : ℚ) * 3 = ((30 : ℕ) : ℚ) := by norm_num
    rw [h30, hfl.exact_nat 30 (by norm_num), my_round_natCast]
    exact toUInt_natCast 30 (by norm_num)

/-- Witness of C8: 10 females, no male, a mean fecundity of 3, exact arithmetic and
`K = 20`. -/
theorem setNbOffspring_Fecundity_round_witness :
    setNbOffspring_Fecundity ⟨0, 3, 1 / 2, fun _ => 0⟩ (fun x => x) 0 10 20 = 30 :=
  (setNbOffspring_Fecundity_round ⟨0, 3, 1 / 2, fun _ => 0⟩ (fun x => x) 0 10 20
    isDoubleRounding_id (by norm_num)
    (by
      have h : round (((10 : ℕ) : ℚ) * 3) = 30 := by
        rw [round_eq, Int.floor_eq_iff]
        norm_num
      show round (((10 : ℕ) : ℚ) * 3) < 2 ^ 32
      rw [h]
      norm_num)).2.2.2 rfl rfl

/-- Counterexample to C9 as stated: with 10 females, a mean fecundity of 3 and
`K = 20` the deterministic model returns 30, and the stochastic model returns
its Poisson draw, here 31: both exceed `K`. -/
theorem setNbOffspring_Fecundity_exceeds_K :
    ¬ (setNbOffspring_Fecundity ⟨0, 3, 1 / 2, fun _ => 0⟩ (fun x => x) 0 10 20 ≤ 20) ∧
    ¬ (setNbOffspring_RandFecundity ⟨0, 3, 1 / 2, fun _ => 0⟩ (fun x => x) (fun _ => 31) 0 10 20
        ≤ 20) := by
  constructor
  · have h : setNbOffspring_Fecundity ⟨0, 3, 1 / 2, fun _ => 0⟩ (fun x => x) 0 10 20 = 30 := by
      unfold setNbOffspring_Fecundity
      have h30 : ((10 : ℕ) : ℚ) * 3 = ((30 : ℕ) : ℚ) := by norm_num
      show toUInt (my_round (((10 : ℕ) : ℚ) * 3)) = 30
      rw [h30, my_round_natCast]
      exact toUInt_natCast 30 (by norm_num)
    rw [h]
    decide
  · simp [setNbOffspring_RandFecundity]

/-- C9 (amended): the fecundity models return the rounded product
`nbFEM × meanFecundity` of doubles, respectively the Poisson draw of that mean,
whatever `K` is: `K` is not consulted, and the result exceeds `K` whenever
that count does. Both counts are taken to be `unsigned int`. -/
theorem setNbOffspring_Fecundity_ignores_K (b : LCE_Breed) (fl : ℚ → ℚ) (Poisson : ℚ → ℕ)
    (nbMAL nbFEM K : ℕ) (hfl : IsDoubleRounding fl) (hmf : 0 ≤ b._mean_fecundity)
    (hr : round (fl ((nbFEM : ℚ) * b._mean_fecundity)) < 2 ^ 32)
    (hP : Poisson (fl ((nbFEM : ℚ) * b._mean_fecundity)) < 2 ^ 32) :
    ((setNbOffspring_Fecundity b fl nbMAL nbFEM K : ℕ) : ℤ)
        = round (fl ((nbFEM : ℚ) * b._mean_fecundity)) ∧
    setNbOffspring_RandFecundity b fl Poisson nbMAL nbFEM K
        = Poisson (fl ((nbFEM : ℚ) * b._mean_fecundity)) ∧
    (∀ K', setNbOffspring_Fecundity b fl nbMAL nbFEM K'
          = setNbOffspring_Fecundity b fl nbMAL nbFEM K ∧
        setNbOffspring_RandFecundity b fl Poisson nbMAL nbFEM K'
          = setNbOffspring_RandFecundity b fl Poisson nbMAL nbFEM K) ∧
    ((K : ℤ) < round (fl ((nbFEM : ℚ) * b._mean_fecundity)) →
      K < setNbOffspring_Fecundity b fl nbMAL nbFEM K) ∧
    (K < Poisson (fl ((nbFEM : ℚ) * b._mean_fecundity)) →
      K < setNbOffspring_RandFecundity b fl Poisson nbMAL nbFEM K) := by
  have h := fecundity_count fl hfl b._mean_fecundity nbFEM hmf hr
  have hPois : setNbOffspring_RandFecundity b fl Poisson nbMAL nbFEM K
      = Poisson (fl ((nbFEM : ℚ) * b._mean_fecundity)) := Nat.mod_eq_of_lt hP
  refine ⟨h, hPois, fun _ => ⟨rfl, rfl⟩, ?_, ?_⟩
  · intro hK
    have h2 : (K : ℤ) < ((setNbOffspring_Fecundity b fl nbMAL nbFEM K : ℕ) : ℤ) := by
      unfold setNbOffspring_Fecundity
      rw [h]
      exact hK
    exact_mod_cast h2
  · intro hK
    rw [hPois]
    exact hK

/-- Witness of C9 (amended): 10 females, a mean fecundity of 3, `K = 20`, exact
arithmetic and a Poisson draw of 31. -/
theorem setNbOffspring_Fecundity_ignores_K_witness :
    20 < setNbOffspring_Fecundity ⟨0, 3, 1 / 2, fun _ => 0⟩ (fun x => x) 0 10 20 ∧
    20 < setNbOffspring_RandFecundity ⟨0, 3, 1 / 2, fun _ => 0⟩ (fun x => x) (fun _ => 31)
      0 10 20 :=
  have h30 : round (((10 : ℕ) : ℚ) * 3) = 30 := by
    rw [round_eq, Int.floor_eq_iff]
    norm_num
  have h := setNbOffspring_Fecundity_ignores_K ⟨0, 3, 1 / 2, fun _ => 0⟩ (fun x => x)
    (fun _ => 31) 0 10 20 isDoubleRounding_id (by norm_num)
    (by
      show round (((10 : ℕ) : ℚ) * 3) < 2 ^ 32
      rw [h30]
      norm_num)
    (by norm_num)
  ⟨h.2.2.2.1 (by
      show ((20 : ℕ) : ℤ) < round (((10 : ℕ) : ℚ) * 3)
      rw [h30]
      norm_num),
    h.2.2.2.2 (by norm_num)⟩

/-! ## Further auxiliary lemmas -/

theorem uadd_cast_of_lt (x y : ℕ) (h : x + y < 2 ^ 32) :
    ((uadd x y : ℕ) : ℚ) = (x : ℚ) + (y : ℚ) := by
  unfold uadd
  rw [Nat.mod_eq_of_lt h]
  push_cast
  rfl

/-- The number of sons of the proportional split is the nearest integer to the
double quotient, and it is at most `nbBaby`. -/
theorem keepSexRatio_sons (fl : ℚ → ℚ) (hfl : IsDoubleRounding fl)
    (nbBaby nbMAL nbFEM : ℕ) (hB : nbBaby < 2 ^ 32) (hpos : 1 ≤ nbMAL + nbFEM)
    (hsum : nbMAL + nbFEM < 2 ^ 32) :
    (((setSexRatio_KeepSexRatio fl nbBaby nbMAL nbFEM).1 : ℕ) : ℤ)
        = round (fl (fl ((nbBaby : ℚ) * (nbMAL : ℚ)) / ((nbMAL : ℚ) + (nbFEM : ℚ)))) ∧
      (setSexRatio_KeepSexRatio fl nbBaby nbMAL nbFEM).1
        + (setSexRatio_KeepSexRatio fl nbBaby nbMAL nbFEM).2 = nbBaby ∧
      (setSexRatio_KeepSexRatio fl nbBaby nbMAL nbFEM).1 ≤ nbBaby := by
  obtain ⟨h0, h1⟩ := keepSexRatio_quotient_bound fl hfl nbBaby nbMAL nbFEM hB hpos hsum
  have hr0 := my_round_nonneg _ h0
  have hr1 := my_round_le_of_lt _ nbBaby h0 h1
  have hB' : (nbBaby : ℤ) < 2 ^ 32 := by exact_mod_cast hB
  have hc := split_conserves nbBaby _ hr0 hr1 hB
  refine ⟨?_, hc.1, hc.2⟩
  show (toUInt (my_round (fl (fl ((nbBaby : ℚ) * (nbMAL : ℚ)) / (uadd nbMAL nbFEM : ℚ)))) : ℤ)
    = _
  rw [toUInt_of_range _ hr0 (by omega), my_round_eq_round _ h0, uadd_cast_of_lt nbMAL nbFEM hsum]

/-- Without adult males the proportional split gives no son. -/
theorem keepSexRatio_no_male (fl : ℚ → ℚ) (hfl : IsDoubleRounding fl) (nbBaby nbFEM : ℕ)
    (hB : nbBaby < 2 ^ 32) : setSexRatio_KeepSexRatio fl nbBaby 0 nbFEM = (0, nbBaby) := by
  have h0 : my_round (0 : ℚ) = 0 := by
    have h := my_round_natCast 0
    simpa using h
  have hu : toUInt 0 = 0 := by
    have h := toUInt_natCast 0 (by norm_num)
    simpa using h
  unfold setSexRatio_KeepSexRatio
  simp only [Nat.cast_zero, mul_zero, hfl.zero, zero_div, h0, hu]
  have hs : usub nbBaby 0 = nbBaby := by
    unfold usub
    simpa using toUInt_natCast nbBaby hB
  rw [hs]

/-- The threshold of the proportional per-offspring draw without adult males is `0`. -/
theorem keepSexRatio_threshold_no_male (fl : ℚ → ℚ) (hfl : IsDoubleRounding fl) (nbFEM : ℕ) :
    fl (((0 : ℕ) : ℚ) / (uadd 0 nbFEM : ℚ)) = 0 := by
  rw [Nat.cast_zero, zero_div, hfl.zero]

theorem isNearestDouble_id : IsNearestDouble (fun x : ℚ => x) where
  toIsDoubleRounding := isDoubleRounding_id
  exact_half := fun _ _ => rfl
  rel_err_quarter := fun x hx => by
    have h : (0 : ℚ) ≤ x * (1 / 2 ^ 53) := by positivity
    linarith

/-- For a total and adult counts with `nbBaby × (nbMAL + nbFEM) ≤ 2 ^ 51`, the
rounding of the product and of the quotient to doubles does not change the
nearest integer of the quotient. -/
theorem nearest_quotient_round (fl : ℚ → ℚ) (h : IsNearestDouble fl) (a b c : ℕ)
    (hpos : 1 ≤ b + c) (hsum : b + c < 2 ^ 32) (hsz : a * (b + c) ≤ 2 ^ 51) :
    round (fl (fl ((a : ℚ) * (b : ℚ)) / ((b : ℚ) + (c : ℚ))))
      = round ((a : ℚ) * (b : ℚ) / ((b : ℚ) + (c : ℚ))) := by
  have hfl : IsDoubleRounding fl := h.toIsDoubleRounding
  have hs : (0 : ℚ) < (b : ℚ) + (c : ℚ) := by exact_mod_cast hpos
  have hsU : (b : ℚ) + (c : ℚ) ≤ 2 ^ 32 := by exact_mod_cast hsum.le
  have ha0 : (0 : ℚ) ≤ (a : ℚ) := Nat.cast_nonneg a
  have hb0 : (0 : ℚ) ≤ (b : ℚ) := Nat.cast_nonneg b
  have hc0 : (0 : ℚ) ≤ (c : ℚ) := Nat.cast_nonneg c
  have hszq : (a : ℚ) * ((b : ℚ) + (c : ℚ)) ≤ 2 ^ 51 := by exact_mod_cast hsz
  have habn : a * b ≤ 2 ^ 53 := by
    have h1 : a * b ≤ a * (b + c) := Nat.mul_le_mul_left a (Nat.le_add_right b c)
    have h2 : (2 : ℕ) ^ 51 ≤ 2 ^ 53 := by norm_num
    omega
  have han : a ≤ 2 ^ 51 := by
    have h1 : a * 1 ≤ a * (b + c) := Nat.mul_le_mul_left a hpos
    omega
  have hex : fl ((a : ℚ) * (b : ℚ)) = (a : ℚ) * (b : ℚ) := by
    have h1 := hfl.exact_nat (a * b) habn
    push_cast at h1
    exact h1
  rw [hex, round_eq, round_eq]
  have hx0 : 0 ≤ (a : ℚ) * (b : ℚ) / ((b : ℚ) + (c : ℚ)) :=
    div_nonneg (mul_nonneg ha0 hb0) hs.le
  have hxa : (a : ℚ) * (b : ℚ) / ((b : ℚ) + (c : ℚ)) ≤ (a : ℚ) := by
    rw [div_le_iff₀ hs]
    nlinarith
  generalize hx : (a : ℚ) * (b : ℚ) / ((b : ℚ) + (c : ℚ)) = x at hx0 hxa ⊢
  have hxs : x * ((b : ℚ) + (c : ℚ)) = (a : ℚ) * (b : ℚ) := by
    rw [← hx]
    field_simp
  generalize hk : ⌊x + 1 / 2⌋ = k
  have hk1 : (k : ℚ) ≤ x + 1 / 2 := by rw [← hk]; exact Int.floor_le _
  have hk2 : x + 1 / 2 < (k : ℚ) + 1 := by rw [← hk]; exact Int.lt_floor_add_one _
  have hk0 : 0 ≤ k := by
    rw [← hk]
    exact Int.floor_nonneg.mpr (by linarith)
  have hka : k ≤ (a : ℤ) := by
    have h1 : (k : ℚ) < (a : ℚ) + 1 := by linarith
    have h2 : k < (a : ℤ) + 1 := by exact_mod_cast h1
    omega
  have hkq : (k : ℚ) ≤ (a : ℚ) := by exact_mod_cast hka
  have hk0q : (0 : ℚ) ≤ (k : ℚ) := by exact_mod_cast hk0
  rw [Int.floor_eq_iff]
  constructor
  · rcases Int.lt_or_le k 1 with hlt | hge
    · have hkz : k = 0 := by omega
      have := hfl.nonneg x hx0
      rw [hkz]
      push_cast
      linarith
    · obtain ⟨n, hn⟩ := Int.eq_ofNat_of_zero_le (show 0 ≤ k - 1 by omega)
      have hnk : (k : ℚ) = (n : ℚ) + 1 := by
        have : k = (n : ℤ) + 1 := by omega
        rw [this]
        push_cast
        rfl
      have hn52 : n < 2 ^ 52 := by
        have : (n : ℤ) < 2 ^ 52 := by
          have han' : (a : ℤ) ≤ 2 ^ 51 := by exact_mod_cast han
          omega
        exact_mod_cast this
      have h1 := h.exact_half n hn52
      have h2 := hfl.mono ((n : ℚ) + 1 / 2) x (by linarith)
      rw [h1] at h2
      linarith
  · have hlt : (a : ℚ) * (b : ℚ) < ((k : ℚ) + 1 / 2) * ((b : ℚ) + (c : ℚ)) := by
      rw [← hxs]
      exact mul_lt_mul_of_pos_right (by linarith) hs
    have hint : 2 * ((a : ℤ) * (b : ℤ)) + 1 ≤ (2 * k + 1) * ((b : ℤ) + (c : ℤ)) := by
      have h1 : 2 * ((a : ℚ) * (b : ℚ)) < (2 * (k : ℚ) + 1) * ((b : ℚ) + (c : ℚ)) := by
        linarith
      have h2 : 2 * ((a : ℤ) * (b : ℤ)) < (2 * k + 1) * ((b : ℤ) + (c : ℤ)) := by
        exact_mod_cast h1
      omega
    have hintq : 2 * ((a : ℚ) * (b : ℚ)) + 1 ≤ (2 * (k : ℚ) + 1) * ((b : ℚ) + (c : ℚ)) := by
      exact_mod_cast hint
    have hxy : x ≤ (k : ℚ) + 1 / 2 - 1 / (2 * ((b : ℚ) + (c : ℚ))) := by
      have e : ((k : ℚ) + 1 / 2 - 1 / (2 * ((b : ℚ) + (c : ℚ)))) * ((b : ℚ) + (c : ℚ))
          = ((2 * (k : ℚ) + 1) * ((b : ℚ) + (c : ℚ)) - 1) / 2 := by
        field_simp
        ring
      have h3 : x * ((b : ℚ) + (c : ℚ))
          ≤ ((k : ℚ) + 1 / 2 - 1 / (2 * ((b : ℚ) + (c : ℚ)))) * ((b : ℚ) + (c : ℚ)) := by
        rw [e, hxs]
        linarith
      exact le_of_mul_le_mul_right h3 hs
    have hinv : (0 : ℚ) < 1 / (2 * ((b : ℚ) + (c : ℚ))) := by positivity
    rcases lt_or_le ((k : ℚ) + 1 / 2 - 1 / (2 * ((b : ℚ) + (c : ℚ)))) (1 / 4) with hy | hy
    · have h1 := hfl.mono x (1 / 4) (by linarith)
      have h2 := h.rel_err_quarter (1 / 4) le_rfl
      have h3 : (1 / 4 : ℚ) * (1 + 1 / 2 ^ 53) < 1 / 2 := by norm_num
      linarith
    · have h1 := hfl.mono x _ hxy
      have h2 := h.rel_err_quarter _ hy
      have h4 : ((k : ℚ) + 1 / 2) * (1 / 2 ^ 53) ≤ 1 / (2 * ((b : ℚ) + (c : ℚ))) := by
        rw [le_div_iff₀ (by positivity)]
        have h5 : (k : ℚ) * ((b : ℚ) + (c : ℚ)) ≤ 2 ^ 51 := by
          have : (k : ℚ) * ((b : ℚ) + (c : ℚ)) ≤ (a : ℚ) * ((b : ℚ) + (c : ℚ)) :=
            mul_le_mul_of_nonneg_right hkq hs.le
          linarith
        have e : ((k : ℚ) + 1 / 2) * (1 / 2 ^ 53) * (2 * ((b : ℚ) + (c : ℚ)))
            = (2 * ((k : ℚ) * ((b : ℚ) + (c : ℚ))) + ((b : ℚ) + (c : ℚ))) / 2 ^ 53 := by
          ring
        rw [e, div_le_one (by positivity)]
        have : (2 : ℚ) * 2 ^ 51 + 2 ^ 32 ≤ 2 ^ 53 := by norm_num
        linarith
      have h6 : ((k : ℚ) + 1 / 2 - 1 / (2 * ((b : ℚ) + (c : ℚ)))) * (1 / 2 ^ 53)
          < ((k : ℚ) + 1 / 2) * (1 / 2 ^ 53) := by
        apply mul_lt_mul_of_pos_right _ (by positivity)
        linarith
      have e2 : ((k : ℚ) + 1 / 2 - 1 / (2 * ((b : ℚ) + (c : ℚ)))) * (1 + 1 / 2 ^ 53)
          = ((k : ℚ) + 1 / 2 - 1 / (2 * ((b : ℚ) + (c : ℚ))))
            + ((k : ℚ) + 1 / 2 - 1 / (2 * ((b : ℚ) + (c : ℚ)))) * (1 / 2 ^ 53) := by ring
      rw [e2] at h2
      linarith

/-! ## Rounding to the nearest double -/

theorem int_log_two_eq (x : ℚ) (e : ℤ) (h1 : (2 : ℚ) ^ e ≤ x) (h2 : x < 2 ^ (e + 1)) :
    Int.log 2 x = e := by
  have hx : 0 < x := lt_of_lt_of_le (by positivity) h1
  have ha : e ≤ Int.log 2 x :=
    (Int.zpow_le_iff_le_log (by norm_num) hx).mp (by simpa using h1)
  have hb : Int.log 2 x < e + 1 :=
    (Int.lt_zpow_iff_log_lt (by norm_num) hx).mp (by simpa using h2)
  omega

theorem roundHalfEven_eq_of_near (y : ℚ) (n : ℤ) (h3 : (n : ℚ) - 1 / 2 < y)
    (h4 : y < (n : ℚ) + 1 / 2) : roundHalfEven y = n := by
  have h5 : n - 1 ≤ ⌊y⌋ := by
    rw [Int.le_floor]
    push_cast
    linarith
  have h6 : ⌊y⌋ < n + 1 := by
    rw [Int.floor_lt]
    push_cast
    linarith
  have hfl := Int.floor_le y
  have hfl2 := Int.lt_floor_add_one y
  unfold roundHalfEven
  rcases (show ⌊y⌋ = n ∨ ⌊y⌋ = n - 1 by omega) with h | h
  · rw [h] at hfl hfl2 ⊢
    rw [if_pos (by linarith)]
  · rw [h] at hfl hfl2 ⊢
    push_cast at hfl hfl2 ⊢
    rw [if_neg (by linarith), if_pos (by linarith)]
    ring

theorem roundToDouble_eq_of_near (x : ℚ) (e n : ℤ) (h1 : (2 : ℚ) ^ e ≤ x)
    (h2 : x < 2 ^ (e + 1)) (h3 : (n : ℚ) - 1 / 2 < x / 2 ^ (e - 52))
    (h4 : x / 2 ^ (e - 52) < (n : ℚ) + 1 / 2) :
    roundToDouble x = (n : ℚ) * 2 ^ (e - 52) := by
  have hx : 0 < x := lt_of_lt_of_le (by positivity) h1
  unfold roundToDouble
  rw [if_neg hx.ne', abs_of_pos hx, int_log_two_eq x e h1 h2,
    roundHalfEven_eq_of_near _ n h3 h4]


theorem roundHalfEven_sub_le (y : ℚ) :
    y - 1 / 2 ≤ (roundHalfEven y : ℚ) ∧ (roundHalfEven y : ℚ) ≤ y + 1 / 2 := by
  have hfl := Int.floor_le y
  have hfl2 := Int.lt_floor_add_one y
  unfold roundHalfEven
  split_ifs with h1 h2 h3
  · constructor <;> linarith
  · push_cast
    constructor <;> linarith
  · constructor <;> linarith
  · push_cast
    constructor <;> linarith

theorem roundHalfEven_mono (y₁ y₂ : ℚ) (h : y₁ ≤ y₂) : roundHalfEven y₁ ≤ roundHalfEven y₂ := by
  by_contra hc
  have hc1 : roundHalfEven y₂ + 1 ≤ roundHalfEven y₁ := by omega
  have hc2 : (roundHalfEven y₂ : ℚ) + 1 ≤ (roundHalfEven y₁ : ℚ) := by exact_mod_cast hc1
  have a1 := (roundHalfEven_sub_le y₁).2
  have a2 := (roundHalfEven_sub_le y₂).1
  have e : y₁ = y₂ := by linarith
  rw [e] at hc
  exact hc le_rfl

theorem roundHalfEven_intCast (n : ℤ) : roundHalfEven (n : ℚ) = n :=
  roundHalfEven_eq_of_near _ n (by linarith) (by linarith)

theorem roundToDouble_of_ne_zero (x : ℚ) (hx : x ≠ 0) :
    roundToDouble x
      = (roundHalfEven (x / 2 ^ (Int.log 2 |x| - 52)) : ℚ) * 2 ^ (Int.log 2 |x| - 52) := by
  unfold roundToDouble
  rw [if_neg hx]

theorem two_zpow_log_le (x : ℚ) (hx : x ≠ 0) : (2 : ℚ) ^ Int.log 2 |x| ≤ |x| := by
  have h := Int.zpow_log_le_self (b := 2) (r := |x|) (by norm_num) (abs_pos.mpr hx)
  simpa using h

theorem lt_two_zpow_log_succ (x : ℚ) : |x| < (2 : ℚ) ^ (Int.log 2 |x| + 1) := by
  have h := Int.lt_zpow_succ_log_self (b := 2) (by norm_num) |x|
  simpa using h

theorem two_zpow_split (L : ℤ) : (2 : ℚ) ^ L = 2 ^ 52 * 2 ^ (L - 52) := by
  have h : (2 : ℚ) ^ L = 2 ^ ((52 : ℤ) + (L - 52)) := by rw [add_sub_cancel]
  rw [h, zpow_add₀ (by norm_num)]
  norm_num

theorem two_zpow_succ_split (L : ℤ) : (2 : ℚ) ^ (L + 1) = 2 ^ 53 * 2 ^ (L - 52) := by
  have h : (2 : ℚ) ^ (L + 1) = 2 ^ ((53 : ℤ) + (L - 52)) := by
    congr 1
    ring
  rw [h, zpow_add₀ (by norm_num)]
  norm_num

/-- A positive number and its rounding lie in the same binade. -/
theorem roundToDouble_pos_bounds (x : ℚ) (hx : 0 < x) :
    (2 : ℚ) ^ Int.log 2 x ≤ roundToDouble x ∧ roundToDouble x ≤ 2 ^ (Int.log 2 x + 1) := by
  have h1 := two_zpow_log_le x hx.ne'
  have h2 := lt_two_zpow_log_succ x
  rw [abs_of_pos hx] at h1 h2
  have hu : (0 : ℚ) < 2 ^ (Int.log 2 x - 52) := by positivity
  rw [roundToDouble_of_ne_zero x hx.ne', abs_of_pos hx]
  have hq1 : ((2 ^ 52 : ℤ) : ℚ) ≤ x / 2 ^ (Int.log 2 x - 52) := by
    have c : ((2 ^ 52 : ℤ) : ℚ) = (2 : ℚ) ^ 52 := by norm_num
    rw [le_div_iff₀ hu, c, ← two_zpow_split]
    exact h1
  have hq2 : x / 2 ^ (Int.log 2 x - 52) ≤ ((2 ^ 53 : ℤ) : ℚ) := by
    have c : ((2 ^ 53 : ℤ) : ℚ) = (2 : ℚ) ^ 53 := by norm_num
    rw [div_le_iff₀ hu, c, ← two_zpow_succ_split]
    exact h2.le
  have r1 := roundHalfEven_mono _ _ hq1
  have r2 := roundHalfEven_mono _ _ hq2
  rw [roundHalfEven_intCast] at r1 r2
  have r1q : ((2 : ℚ) ^ 52) ≤ (roundHalfEven (x / 2 ^ (Int.log 2 x - 52)) : ℚ) := by
    exact_mod_cast r1
  have r2q : (roundHalfEven (x / 2 ^ (Int.log 2 x - 52)) : ℚ) ≤ (2 : ℚ) ^ 53 := by
    exact_mod_cast r2
  constructor
  · rw [two_zpow_split]
    exact mul_le_mul_of_nonneg_right r1q hu.le
  · rw [two_zpow_succ_split]
    exact mul_le_mul_of_nonneg_right r2q hu.le

theorem roundToDouble_nonpos (x : ℚ) (hx : x ≤ 0) : roundToDouble x ≤ 0 := by
  rcases eq_or_lt_of_le hx with h | h
  · rw [h]
    simp [roundToDouble]
  · rw [roundToDouble_of_ne_zero x h.ne]
    have hu : (0 : ℚ) < 2 ^ (Int.log 2 |x| - 52) := by positivity
    have hq : x / 2 ^ (Int.log 2 |x| - 52) ≤ ((0 : ℤ) : ℚ) := by
      rw [div_le_iff₀ hu]
      simpa using hx
    have r := roundHalfEven_mono _ _ hq
    rw [roundHalfEven_intCast] at r
    have rq : (roundHalfEven (x / 2 ^ (Int.log 2 |x| - 52)) : ℚ) ≤ 0 := by exact_mod_cast r
    exact mul_nonpos_of_nonpos_of_nonneg rq hu.le

theorem roundToDouble_mono_pos (x y : ℚ) (hx : 0 < x) (h : x ≤ y) :
    roundToDouble x ≤ roundToDouble y := by
  have hy : 0 < y := lt_of_lt_of_le hx h
  have hL : Int.log 2 x ≤ Int.log 2 y := Int.log_mono_right hx h
  rcases eq_or_lt_of_le hL with he | hlt
  · rw [roundToDouble_of_ne_zero x hx.ne', roundToDouble_of_ne_zero y hy.ne', abs_of_pos hx,
      abs_of_pos hy, he]
    have hu : (0 : ℚ) < 2 ^ (Int.log 2 y - 52) := by positivity
    have hq : x / 2 ^ (Int.log 2 y - 52) ≤ y / 2 ^ (Int.log 2 y - 52) :=
      div_le_div_of_nonneg_right h hu.le
    have r := roundHalfEven_mono _ _ hq
    have rq : (roundHalfEven (x / 2 ^ (Int.log 2 y - 52)) : ℚ)
        ≤ (roundHalfEven (y / 2 ^ (Int.log 2 y - 52)) : ℚ) := by exact_mod_cast r
    exact mul_le_mul_of_nonneg_right rq hu.le
  · have b1 := (roundToDouble_pos_bounds x hx).2
    have b2 := (roundToDouble_pos_bounds y hy).1
    have hz : (2 : ℚ) ^ (Int.log 2 x + 1) ≤ 2 ^ Int.log 2 y :=
      zpow_le_zpow_right₀ (by norm_num) (by omega)
    linarith

theorem roundToDouble_nonneg (x : ℚ) (hx : 0 ≤ x) : 0 ≤ roundToDouble x := by
  rcases eq_or_lt_of_le hx with h | h
  · rw [← h]
    simp [roundToDouble]
  · have b := (roundToDouble_pos_bounds x h).1
    have : (0 : ℚ) < 2 ^ Int.log 2 x := by positivity
    linarith

/-- A negative number and its rounding lie in the same binade. -/
theorem roundToDouble_neg_bounds (x : ℚ) (hx : x < 0) :
    -(2 : ℚ) ^ (Int.log 2 |x| + 1) ≤ roundToDouble x ∧
      roundToDouble x ≤ -(2 : ℚ) ^ Int.log 2 |x| := by
  have h1 := two_zpow_log_le x hx.ne
  have h2 := lt_two_zpow_log_succ x
  rw [abs_of_neg hx] at h1 h2
  have hu : (0 : ℚ) < 2 ^ (Int.log 2 (-x) - 52) := by positivity
  rw [roundToDouble_of_ne_zero x hx.ne, abs_of_neg hx]
  have hq1 : x / 2 ^ (Int.log 2 (-x) - 52) ≤ ((-(2 ^ 52) : ℤ) : ℚ) := by
    have c : ((-(2 ^ 52) : ℤ) : ℚ) = -((2 : ℚ) ^ 52) := by norm_num
    rw [div_le_iff₀ hu, c, neg_mul, ← two_zpow_split]
    linarith
  have hq2 : ((-(2 ^ 53) : ℤ) : ℚ) ≤ x / 2 ^ (Int.log 2 (-x) - 52) := by
    have c : ((-(2 ^ 53) : ℤ) : ℚ) = -((2 : ℚ) ^ 53) := by norm_num
    rw [le_div_iff₀ hu, c, neg_mul, ← two_zpow_succ_split]
    linarith
  have r1 := roundHalfEven_mono _ _ hq1
  have r2 := roundHalfEven_mono _ _ hq2
  rw [roundHalfEven_intCast] at r1 r2
  have r1q : (roundHalfEven (x / 2 ^ (Int.log 2 (-x) - 52)) : ℚ) ≤ -((2 : ℚ) ^ 52) := by
    exact_mod_cast r1
  have r2q : -((2 : ℚ) ^ 53) ≤ (roundHalfEven (x / 2 ^ (Int.log 2 (-x) - 52)) : ℚ) := by
    exact_mod_cast r2
  constructor
  · rw [two_zpow_succ_split (Int.log 2 (-x)), ← neg_mul]
    exact mul_le_mul_of_nonneg_right r2q hu.le
  · rw [two_zpow_split (Int.log 2 (-x)), ← neg_mul]
    exact mul_le_mul_of_nonneg_right r1q hu.le

theorem roundToDouble_mono_neg (x y : ℚ) (hy : y < 0) (h : x ≤ y) :
    roundToDouble x ≤ roundToDouble y := by
  have hx : x < 0 := lt_of_le_of_lt h hy
  have habs : |y| ≤ |x| := by
    rw [abs_of_neg hx, abs_of_neg hy]
    linarith
  have hL : Int.log 2 |y| ≤ Int.log 2 |x| := Int.log_mono_right (abs_pos.mpr hy.ne) habs
  rcases eq_or_lt_of_le hL with he | hlt
  · rw [roundToDouble_of_ne_zero x hx.ne, roundToDouble_of_ne_zero y hy.ne, he]
    have hu : (0 : ℚ) < 2 ^ (Int.log 2 |x| - 52) := by positivity
    have hq : x / 2 ^ (Int.log 2 |x| - 52) ≤ y / 2 ^ (Int.log 2 |x| - 52) :=
      div_le_div_of_nonneg_right h hu.le
    have r := roundHalfEven_mono _ _ hq
    have rq : (roundHalfEven (x / 2 ^ (Int.log 2 |x| - 52)) : ℚ)
        ≤ (roundHalfEven (y / 2 ^ (Int.log 2 |x| - 52)) : ℚ) := by exact_mod_cast r
    exact mul_le_mul_of_nonneg_right rq hu.le
  · have b1 := (roundToDouble_neg_bounds x hx).2
    have b2 := (roundToDouble_neg_bounds y hy).1
    have hz : (2 : ℚ) ^ (Int.log 2 |y| + 1) ≤ 2 ^ Int.log 2 |x| :=
      zpow_le_zpow_right₀ (by norm_num) (by omega)
    linarith

theorem roundToDouble_mono (x y : ℚ) (h : x ≤ y) : roundToDouble x ≤ roundToDouble y := by
  rcases lt_or_le 0 x with hx | hx
  · exact roundToDouble_mono_pos x y hx h
  · rcases lt_or_le y 0 with hy | hy
    · exact roundToDouble_mono_neg x y hy h
    · exact le_trans (roundToDouble_nonpos x hx) (roundToDouble_nonneg y hy)

theorem roundToDouble_rel_err (x : ℚ) (hx : 0 < x) :
    roundToDouble x ≤ x * (1 + 1 / 2 ^ 53) := by
  have h1 := two_zpow_log_le x hx.ne'
  rw [abs_of_pos hx, two_zpow_split] at h1
  have hu : (0 : ℚ) < 2 ^ (Int.log 2 x - 52) := by positivity
  rw [roundToDouble_of_ne_zero x hx.ne', abs_of_pos hx]
  have a := (roundHalfEven_sub_le (x / 2 ^ (Int.log 2 x - 52))).2
  have b : (roundHalfEven (x / 2 ^ (Int.log 2 x - 52)) : ℚ) * 2 ^ (Int.log 2 x - 52)
      ≤ (x / 2 ^ (Int.log 2 x - 52) + 1 / 2) * 2 ^ (Int.log 2 x - 52) :=
    mul_le_mul_of_nonneg_right a hu.le
  have e : (x / 2 ^ (Int.log 2 x - 52) + 1 / 2) * 2 ^ (Int.log 2 x - 52)
      = x + 2 ^ (Int.log 2 x - 52) / 2 := by
    field_simp
    ring
  rw [e] at b
  have c : (2 : ℚ) ^ (Int.log 2 x - 52) / 2 ≤ x * (1 / 2 ^ 53) := by
    have : (2 : ℚ) ^ 53 * (2 ^ (Int.log 2 x - 52) / 2) ≤ x := by
      calc (2 : ℚ) ^ 53 * (2 ^ (Int.log 2 x - 52) / 2)
          = 2 ^ 52 * 2 ^ (Int.log 2 x - 52) := by ring
        _ ≤ x := h1
    rw [mul_one_div, le_div_iff₀ (by positivity), mul_comm]
    exact this
  linarith

/-- A number that is an integer multiple of the unit of its binade is a double. -/
theorem roundToDouble_of_multiple (x : ℚ) (hx : x ≠ 0) (m : ℤ)
    (h : x = (m : ℚ) * 2 ^ (Int.log 2 |x| - 52)) : roundToDouble x = x := by
  have hu : (0 : ℚ) < 2 ^ (Int.log 2 |x| - 52) := by positivity
  have hq : x / 2 ^ (Int.log 2 |x| - 52) = (m : ℚ) := by
    rw [div_eq_iff hu.ne']
    exact h
  rw [roundToDouble_of_ne_zero x hx, hq, roundHalfEven_intCast]
  exact h.symm

theorem two_zpow_neg_natCast (k : ℕ) (L : ℤ) (h : L - 52 = -(k : ℤ)) :
    (2 : ℚ) ^ (L - 52) = 1 / 2 ^ k := by
  rw [h, zpow_neg, zpow_natCast, one_div]

theorem roundToDouble_natCast (n : ℕ) (hn : n ≤ 2 ^ 53) : roundToDouble (n : ℚ) = (n : ℚ) := by
  rcases Nat.eq_zero_or_pos n with h0 | hpos
  · rw [h0]
    simp [roundToDouble]
  · have hx : (0 : ℚ) < (n : ℚ) := by exact_mod_cast hpos
    have hL1 := two_zpow_log_le (n : ℚ) hx.ne'
    have hL2 := lt_two_zpow_log_succ (n : ℚ)
    rw [abs_of_pos hx] at hL1 hL2
    have hnq : (n : ℚ) ≤ 2 ^ 53 := by exact_mod_cast hn
    have hlo : 0 ≤ Int.log 2 (n : ℚ) :=
      (Int.zpow_le_iff_le_log (b := 2) (by norm_num) hx).mp (by
        have : (1 : ℚ) ≤ (n : ℚ) := by exact_mod_cast hpos
        simpa using this)
    have hhi : Int.log 2 (n : ℚ) < 54 :=
      (Int.lt_zpow_iff_log_lt (b := 2) (by norm_num) hx).mp (by
        have : (n : ℚ) < 2 ^ (54 : ℤ) := by
          have : (2 : ℚ) ^ 53 < 2 ^ (54 : ℤ) := by norm_num
          linarith
        simpa using this)
    rcases (show Int.log 2 (n : ℚ) ≤ 52 ∨ Int.log 2 (n : ℚ) = 53 by omega) with hle | h53
    · obtain ⟨k, hk⟩ := Int.eq_ofNat_of_zero_le (show 0 ≤ 52 - Int.log 2 (n : ℚ) by omega)
      apply roundToDouble_of_multiple (n : ℚ) hx.ne' ((n : ℤ) * 2 ^ k)
      rw [abs_of_pos hx, two_zpow_neg_natCast k _ (by omega)]
      push_cast
      field_simp
    · rw [h53] at hL1
      have hL1n : (2 : ℚ) ^ 53 ≤ (n : ℚ) := by
        have c : (2 : ℚ) ^ (53 : ℤ) = 2 ^ 53 := by norm_num
        rw [← c]
        exact hL1
      have hn53 : (n : ℚ) = 2 ^ 53 := le_antisymm hnq hL1n
      apply roundToDouble_of_multiple (n : ℚ) hx.ne' (2 ^ 52)
      rw [abs_of_pos hx, h53, hn53]
      norm_num

theorem roundToDouble_half (n : ℕ) (hn : n < 2 ^ 52) :
    roundToDouble ((n : ℚ) + 1 / 2) = (n : ℚ) + 1 / 2 := by
  have hn0 : (0 : ℚ) ≤ (n : ℚ) := Nat.cast_nonneg n
  have hx : (0 : ℚ) < (n : ℚ) + 1 / 2 := by linarith
  have hnq : (n : ℚ) + 1 ≤ 2 ^ 52 := by exact_mod_cast hn
  have hlo : -1 ≤ Int.log 2 ((n : ℚ) + 1 / 2) :=
    (Int.zpow_le_iff_le_log (b := 2) (by norm_num) hx).mp (by
      have c : ((2 : ℕ) : ℚ) = 2 := by norm_num
      rw [c, zpow_neg, zpow_one]
      linarith)
  have hhi : Int.log 2 ((n : ℚ) + 1 / 2) < 52 :=
    (Int.lt_zpow_iff_log_lt (b := 2) (by norm_num) hx).mp (by
      have : (n : ℚ) + 1 / 2 < 2 ^ (52 : ℤ) := by
        have : (2 : ℚ) ^ (52 : ℤ) = 2 ^ 52 := by norm_num
        rw [this]
        linarith
      simpa using this)
  obtain ⟨k, hk⟩ := Int.eq_ofNat_of_zero_le
    (show 0 ≤ 51 - Int.log 2 ((n : ℚ) + 1 / 2) by omega)
  apply roundToDouble_of_multiple _ hx.ne' ((2 * (n : ℤ) + 1) * 2 ^ k)
  rw [abs_of_pos hx, two_zpow_neg_natCast (k + 1) _ (by push_cast; omega)]
  push_cast
  field_simp
  ring

/-- Rounding to the nearest double has the properties the theorems assume. -/
theorem isNearestDouble_roundToDouble : IsNearestDouble roundToDouble where
  mono := roundToDouble_mono
  exact_nat := roundToDouble_natCast
  rel_err := fun x hx => roundToDouble_rel_err x (by linarith)
  exact_half := roundToDouble_half
  rel_err_quarter := fun x hx => roundToDouble_rel_err x (by linarith)

/-! ## Theorems on the sex draws and the declarations -/

/-- Counterexample to C11 as stated: for 96422331 offspring of 2017782925 males and
129700723 females, computed in doubles rounded to nearest, the product is
rounded up by one, the quotient is exactly 90598749.5 and `nbSons` is
90598750, while the exact rational quotient lies below the half and rounds to
90598749. -/
theorem setSexRatio_KeepSexRatio_not_exact :
    1 ≤ 2017782925 + 129700723 ∧
    (setSexRatio_KeepSexRatio roundToDouble 96422331 2017782925 129700723).1 = 90598750 ∧
    round (((96422331 : ℕ) : ℚ) * ((2017782925 : ℕ) : ℚ)
        / (((2017782925 : ℕ) : ℚ) + ((129700723 : ℕ) : ℚ))) = 90598749 ∧
    (((setSexRatio_KeepSexRatio roundToDouble 96422331 2017782925 129700723).1 : ℕ) : ℤ)
      ≠ round (((96422331 : ℕ) : ℚ) * ((2017782925 : ℕ) : ℚ)
        / (((2017782925 : ℕ) : ℚ) + ((129700723 : ℕ) : ℚ))) := by
  have hs : ((uadd 2017782925 129700723 : ℕ) : ℚ) = 2147483648 := by
    norm_num [uadd]
  have hP : roundToDouble (((96422331 : ℕ) : ℚ) * ((2017782925 : ℕ) : ℚ))
      = 194559333080498176 := by
    have e : ((96422331 : ℕ) : ℚ) * ((2017782925 : ℕ) : ℚ) = 194559333080498175 := by
      norm_num
    rw [e, roundToDouble_eq_of_near 194559333080498175 57 6079979158765568 (by norm_num)
      (by norm_num) (by norm_num) (by norm_num)]
    norm_num
  have hQ : roundToDouble (194559333080498176 / 2147483648) = 181197499 / 2 := by
    rw [roundToDouble_eq_of_near (194559333080498176 / 2147483648) 26 6079979158765568
      (by norm_num) (by norm_num) (by norm_num) (by norm_num)]
    norm_num
  have hr : my_round (181197499 / 2) = ((90598750 : ℕ) : ℤ) := by
    rw [my_round_of_nonneg _ (by norm_num), Int.floor_eq_iff]
    norm_num
  have hsons : (setSexRatio_KeepSexRatio roundToDouble 96422331 2017782925 129700723).1
      = 90598750 := by
    show toUInt (my_round (roundToDouble (roundToDouble
      (((96422331 : ℕ) : ℚ) * ((2017782925 : ℕ) : ℚ))
        / ((uadd 2017782925 129700723 : ℕ) : ℚ)))) = 90598750
    rw [hP, hs, hQ, hr]
    exact toUInt_natCast 90598750 (by norm_num)
  have hex : round (((96422331 : ℕ) : ℚ) * ((2017782925 : ℕ) : ℚ)
      / (((2017782925 : ℕ) : ℚ) + ((129700723 : ℕ) : ℚ))) = 90598749 := by
    rw [round_eq, Int.floor_eq_iff]
    norm_num
  refine ⟨by norm_num, hsons, hex, ?_⟩
  rw [hsons, hex]
  norm_num

/-- C11 (amended): for a total `nbBaby` and adult counts with `1 ≤ nbMAL + nbFEM`,
all `unsigned int`, the proportional split returns as `nbSons` the rounded
quotient `nbBaby × nbMAL / (nbMAL + nbFEM)` as the doubles compute it, and
`nbDaugthers` is `nbBaby − nbSons`. That `nbSons` is the rounded exact rational
quotient when the product and the quotient are computed exactly, and also
under rounding to the nearest double as long as
`nbBaby × (nbMAL + nbFEM) ≤ 2 ^ 51`. -/
theorem setSexRatio_KeepSexRatio_round (fl : ℚ → ℚ) (nbBaby nbMAL nbFEM : ℕ)
    (hfl : IsDoubleRounding fl) (hB : nbBaby < 2 ^ 32) (hpos : 1 ≤ nbMAL + nbFEM)
    (hsum : nbMAL + nbFEM < 2 ^ 32) :
    (((setSexRatio_KeepSexRatio fl nbBaby nbMAL nbFEM).1 : ℕ) : ℤ)
        = round (fl (fl ((nbBaby : ℚ) * (nbMAL : ℚ)) / ((nbMAL : ℚ) + (nbFEM : ℚ)))) ∧
    (fl ((nbBaby : ℚ) * (nbMAL : ℚ)) = (nbBaby : ℚ) * (nbMAL : ℚ) →
      fl ((nbBaby : ℚ) * (nbMAL : ℚ) / ((nbMAL : ℚ) + (nbFEM : ℚ)))
        = (nbBaby : ℚ) * (nbMAL : ℚ) / ((nbMAL : ℚ) + (nbFEM : ℚ)) →
      (((setSexRatio_KeepSexRatio fl nbBaby nbMAL nbFEM).1 : ℕ) : ℤ)
        = round ((nbBaby : ℚ) * (nbMAL : ℚ) / ((nbMAL : ℚ) + (nbFEM : ℚ)))) ∧
    (setSexRatio_KeepSexRatio fl nbBaby nbMAL nbFEM).1 ≤ nbBaby ∧
    (setSexRatio_KeepSexRatio fl nbBaby nbMAL nbFEM).2
        = nbBaby - (setSexRatio_KeepSexRatio fl nbBaby nbMAL nbFEM).1 ∧
    (IsNearestDouble fl → nbBaby * (nbMAL + nbFEM) ≤ 2 ^ 51 →
      (((setSexRatio_KeepSexRatio fl nbBaby nbMAL nbFEM).1 : ℕ) : ℤ)
        = round ((nbBaby : ℚ) * (nbMAL : ℚ) / ((nbMAL : ℚ) + (nbFEM : ℚ)))) := by
  obtain ⟨h1, h2, h3⟩ := keepSexRatio_sons fl hfl nbBaby nbMAL nbFEM hB hpos hsum
  refine ⟨h1, ?_, h3, by omega, ?_⟩
  · intro e1 e2
    rw [h1, e1, e2]
  · intro hn hsz
    rw [h1]
    exact nearest_quotient_round fl hn nbBaby nbMAL nbFEM hpos hsum hsz

/-- Witness of C11 (amended): 10 offspring of 1 male and 2 females in doubles
rounded to nearest: the quotient 10/3 is not a double, and `nbSons` is the
round of the exact quotient, 3, with 7 daughters left. -/
theorem setSexRatio_KeepSexRatio_round_witness :
    (((setSexRatio_KeepSexRatio roundToDouble 10 1 2).1 : ℕ) : ℤ)
        = round (((10 : ℕ) : ℚ) * ((1 : ℕ) : ℚ) / (((1 : ℕ) : ℚ) + ((2 : ℕ) : ℚ))) ∧
    (setSexRatio_KeepSexRatio roundToDouble 10 1 2).1 ≤ 10 ∧
    (setSexRatio_KeepSexRatio roundToDouble 10 1 2).2
        = 10 - (setSexRatio_KeepSexRatio roundToDouble 10 1 2).1 :=
  have h := setSexRatio_KeepSexRatio_round roundToDouble 10 1 2
    isNearestDouble_roundToDouble.toIsDoubleRounding (by norm_num) (by norm_num) (by norm_num)
  ⟨h.2.2.2.2 isNearestDouble_roundToDouble (by norm_num), h.2.2.1, h.2.2.2.1⟩

/-- C12: the Selfing split returns `nbSons = 0` and `nbDaugthers = nbBaby` for every
total and all adult counts; 30 offspring give 0 sons and 30 daughters. -/
theorem setSexRatio_Selfing_eq (nbBaby nbMAL nbFEM : ℕ) :
    (setSexRatio_Selfing nbBaby nbMAL nbFEM).1 = 0 ∧
      (setSexRatio_Selfing nbBaby nbMAL nbFEM).2 = nbBaby ∧
      setSexRatio_Selfing 30 0 10 = (0, 30) :=
  ⟨rfl, rfl, rfl⟩

/-- C13: as a function of the uniform draw `u`, each per-offspring draw returns male
exactly when `u` is below the male probability of the variant and female
otherwise: never for Selfing, which takes no draw, below `_sex_ratio` for the
fixed ratio, below the double quotient `nbMAL / (nbMAL + nbFEM)` for the
proportional variant, a number of `[0, 1]` that is the exact quotient when
the division is exact. -/
theorem getRandomSex_threshold (b : LCE_Breed) (fl : ℚ → ℚ) (u : ℚ) (nbMAL nbFEM : ℕ)
    (hfl : IsDoubleRounding fl) (hu : 0 ≤ u) :
    (getRandomSex_Selfing nbMAL nbFEM = .FEM ∧
      (getRandomSex_Selfing nbMAL nbFEM = .MAL ↔ u < 0)) ∧
    ((getRandomSex_NoSelfing b u nbMAL nbFEM = .MAL ↔ u < b._sex_ratio) ∧
      (getRandomSex_NoSelfing b u nbMAL nbFEM = .FEM ↔ ¬ u < b._sex_ratio)) ∧
    (1 ≤ nbMAL + nbFEM → nbMAL + nbFEM < 2 ^ 32 →
      (getRandomSex_KeepSexRatio fl u nbMAL nbFEM = .MAL ↔
        u < fl ((nbMAL : ℚ) / ((nbMAL : ℚ) + (nbFEM : ℚ)))) ∧
      (getRandomSex_KeepSexRatio fl u nbMAL nbFEM = .FEM ↔
        ¬ u < fl ((nbMAL : ℚ) / ((nbMAL : ℚ) + (nbFEM : ℚ)))) ∧
      (0 ≤ fl ((nbMAL : ℚ) / ((nbMAL : ℚ) + (nbFEM : ℚ))) ∧
        fl ((nbMAL : ℚ) / ((nbMAL : ℚ) + (nbFEM : ℚ))) ≤ 1) ∧
      (fl ((nbMAL : ℚ) / ((nbMAL : ℚ) + (nbFEM : ℚ)))
          = (nbMAL : ℚ) / ((nbMAL : ℚ) + (nbFEM : ℚ)) →
        (getRandomSex_KeepSexRatio fl u nbMAL nbFEM = .MAL ↔
          u < (nbMAL : ℚ) / ((nbMAL : ℚ) + (nbFEM : ℚ))))) := by
  refine ⟨⟨rfl, ?_⟩, ⟨?_, ?_⟩, ?_⟩
  · constructor
    · intro h
      exact absurd h (by simp [getRandomSex_Selfing])
    · intro h
      exact absurd h (not_lt.mpr hu)
  · unfold getRandomSex_NoSelfing
    split <;> simp_all
  · unfold getRandomSex_NoSelfing
    split <;> simp_all
  · intro hpos hsum
    have hc := uadd_cast_of_lt nbMAL nbFEM hsum
    have hsq : (0 : ℚ) < (nbMAL : ℚ) + (nbFEM : ℚ) := by exact_mod_cast hpos
    have hb0 : (0 : ℚ) ≤ (nbMAL : ℚ) := Nat.cast_nonneg nbMAL
    have hc0 : (0 : ℚ) ≤ (nbFEM : ℚ) := Nat.cast_nonneg nbFEM
    have hM : getRandomSex_KeepSexRatio fl u nbMAL nbFEM = .MAL ↔
        u < fl ((nbMAL : ℚ) / ((nbMAL : ℚ) + (nbFEM : ℚ))) := by
      unfold getRandomSex_KeepSexRatio
      rw [hc]
      split <;> simp_all
    have hF : getRandomSex_KeepSexRatio fl u nbMAL nbFEM = .FEM ↔
        ¬ u < fl ((nbMAL : ℚ) / ((nbMAL : ℚ) + (nbFEM : ℚ))) := by
      unfold getRandomSex_KeepSexRatio
      rw [hc]
      split <;> simp_all
    refine ⟨hM, hF, ⟨?_, ?_⟩, ?_⟩
    · exact hfl.nonneg _ (div_nonneg hb0 hsq.le)
    · have h1 : (nbMAL : ℚ) / ((nbMAL : ℚ) + (nbFEM : ℚ)) ≤ 1 := by
        rw [div_le_one hsq]
        linarith
      have h2 := hfl.mono _ _ h1
      have h3 := hfl.exact_nat 1 (by norm_num)
      rw [Nat.cast_one] at h3
      rwa [h3] at h2
    · intro e
      rw [hM, e]

/-- Witness of C13: one male and two females, exact arithmetic: a draw of 1/4 is
below 1/3 and gives a male. -/
theorem getRandomSex_threshold_witness :
    getRandomSex_KeepSexRatio (fun x => x) (1 / 4) 1 2 = .MAL :=
  ((getRandomSex_threshold ⟨0, 3, 1 / 2, fun _ => 0⟩ (fun x => x) (1 / 4) 1 2
    isDoubleRounding_id (by norm_num)).2.2 (by norm_num) (by norm_num)).1.mpr (by norm_num)

/-- C16: the breeding event requires the adults age class, adds the offspring age
class and removes no age class. -/
theorem ageClass_declarations (flags : AgeFlags) :
    requiredAgeClass flags = flags.ADULTS ∧ addAgeClass flags = flags.OFFSPRG ∧
      removeAgeClass = 0 :=
  ⟨rfl, rfl, rfl⟩

/-- C18: without adult males and with at least one adult female the proportional
variant coincides with the Selfing variant: the divisor is not zero, the
split of every total `nbBaby` is `(0, nbBaby)` as for Selfing, and every
uniform draw `u ≥ 0` gives a female as for Selfing. -/
theorem keepSexRatio_no_male_eq_selfing (fl : ℚ → ℚ) (nbBaby nbFEM : ℕ) (u : ℚ)
    (hfl : IsDoubleRounding fl) (hB : nbBaby < 2 ^ 32) (hF1 : 1 ≤ nbFEM)
    (hF2 : nbFEM < 2 ^ 32) (hu : 0 ≤ u) :
    ((uadd 0 nbFEM : ℕ) : ℚ) ≠ 0 ∧
    setSexRatio_KeepSexRatio fl nbBaby 0 nbFEM = setSexRatio_Selfing nbBaby 0 nbFEM ∧
    setSexRatio_KeepSexRatio fl nbBaby 0 nbFEM = (0, nbBaby) ∧
    getRandomSex_KeepSexRatio fl u 0 nbFEM = getRandomSex_Selfing 0 nbFEM ∧
    getRandomSex_KeepSexRatio fl u 0 nbFEM = .FEM := by
  have hs := keepSexRatio_no_male fl hfl nbBaby nbFEM hB
  have hd : getRandomSex_KeepSexRatio fl u 0 nbFEM = .FEM := by
    unfold getRandomSex_KeepSexRatio
    rw [keepSexRatio_threshold_no_male fl hfl nbFEM, if_neg (not_lt.mpr hu)]
  refine ⟨?_, ?_, hs, ?_, hd⟩
  · have hc := uadd_cast_of_lt 0 nbFEM (by omega)
    rw [hc]
    have : (1 : ℚ) ≤ (nbFEM : ℚ) := by exact_mod_cast hF1
    simp only [Nat.cast_zero, zero_add]
    linarith
  · rw [hs]
    rfl
  · rw [hd]
    rfl

/-- Witness of C18: 30 offspring of 10 females and no male, exact arithmetic, and a
uniform draw of 1/4. -/
theorem keepSexRatio_no_male_eq_selfing_witness :
    setSexRatio_KeepSexRatio (fun x => x) 30 0 10 = (0, 30) ∧
    getRandomSex_KeepSexRatio (fun x => x) (1 / 4) 0 10 = .FEM :=
  have h := keepSexRatio_no_male_eq_selfing (fun x => x) 30 10 (1 / 4) isDoubleRounding_id
    (by norm_num) (by norm_num) (by norm_num) (by norm_num)
  ⟨h.2.2.1, h.2.2.2.2⟩

/-! ## Lemmas on the hook, the cached counts and the pairing -/

theorem executeBeforeEachGeneration_of_ne_one {σ : Type} (my_NAN : ℚ)
    (reset : age_idx → σ → σ) (b : LCE_Breed) (gen : ℤ) (pop : σ) (h : gen ≠ 1) :
    executeBeforeEachGeneration my_NAN reset b gen pop = pop := by
  unfold executeBeforeEachGeneration
  rw [if_neg (fun hc => h hc.1)]

theorem executeBeforeEachGeneration_of_NAN {σ : Type} (my_NAN : ℚ)
    (reset : age_idx → σ → σ) (b : LCE_Breed) (gen : ℤ) (pop : σ)
    (h : b._threshold = my_NAN) :
    executeBeforeEachGeneration my_NAN reset b gen pop = pop := by
  unfold executeBeforeEachGeneration
  rw [if_neg (fun hc => hc.2 h)]

/-- Hook calls for generations other than the first leave the state as it is. -/
theorem foldl_hooks_of_ne_one {σ : Type} (my_NAN : ℚ) (reset : age_idx → σ → σ)
    (b : LCE_Breed) (l : List ℕ) (h : ∀ g ∈ l, g ≠ 1) (pop : σ) :
    l.foldl (fun s (gen : ℕ) => executeBeforeEachGeneration my_NAN reset b (gen : ℤ) s) pop
      = pop := by
  induction l generalizing pop with
  | nil => rfl
  | cons g t ih =>
    have hg : ((g : ℕ) : ℤ) ≠ 1 := by
      have := h g (List.mem_cons_self g t)
      exact_mod_cast this
    rw [List.foldl_cons, executeBeforeEachGeneration_of_ne_one my_NAN reset b _ pop hg]
    exact ih (fun x hx => h x (List.mem_cons_of_mem g hx)) pop

/-- Hook calls of a run without a configured threshold leave the state as it is. -/
theorem foldl_hooks_of_NAN {σ : Type} (my_NAN : ℚ) (reset : age_idx → σ → σ)
    (b : LCE_Breed) (h : b._threshold = my_NAN) (l : List ℕ) (pop : σ) :
    l.foldl (fun s (gen : ℕ) => executeBeforeEachGeneration my_NAN reset b (gen : ℤ) s) pop
      = pop := by
  induction l generalizing pop with
  | nil => rfl
  | cons g t ih =>
    rw [List.foldl_cons, executeBeforeEachGeneration_of_NAN my_NAN reset b _ pop h]
    exact ih pop

/-- With a configured threshold the hooks of a run of at least one generation
amount to one adjustment of the adults. -/
theorem run_generation_hooks_configured {σ : Type} (my_NAN : ℚ) (reset : age_idx → σ → σ)
    (b : LCE_Breed) (G : ℕ) (pop : σ) (hT : b._threshold ≠ my_NAN) (hG : 1 ≤ G) :
    run_generation_hooks my_NAN reset b G pop = reset .ADLTx pop := by
  obtain ⟨n, rfl⟩ : ∃ n, G = n + 1 := ⟨G - 1, by omega⟩
  unfold run_generation_hooks
  rw [List.range'_succ, List.foldl_cons]
  have h1 : executeBeforeEachGeneration my_NAN reset b ((1 : ℕ) : ℤ) pop = reset .ADLTx pop := by
    unfold executeBeforeEachGeneration
    rw [if_pos ⟨by norm_num, hT⟩]
  rw [h1]
  apply foldl_hooks_of_ne_one
  intro g hg
  rw [List.mem_range'_1] at hg
  omega

theorem one_sex_feasible_counts (b b' : LCE_Breed) (p p' : Patch)
    (h : isMatingPossbile_1_sex b p = some (b', p', true)) :
    b'._nbIndividuals .MAL = 0 ∧ b'._nbIndividuals .FEM = p.size .FEM .ADLTx ∧
      1 ≤ p.size .FEM .ADLTx := by
  by_cases hM : p.size .MAL .ADLTx = 0
  · rw [isMatingPossbile_1_sex_of_no_male b p hM] at h
    simp only [Option.some.injEq, Prod.mk.injEq] at h
    obtain ⟨hb, _, hflag⟩ := h
    subst hb
    refine ⟨by simp [LCE_Breed.set_nbIndividuals], by simp [LCE_Breed.set_nbIndividuals], ?_⟩
    by_contra hF
    have hF0 : p.size .FEM .ADLTx = 0 := by omega
    simp [hF0] at hflag
  · rw [isMatingPossbile_1_sex_of_male b p hM] at h
    exact absurd h (by simp)

theorem two_sex_feasible_counts (b b' : LCE_Breed) (p p' : Patch)
    (h : isMatingPossible_2_sex b p = (b', p', true)) :
    b'._nbIndividuals .MAL = p.size .MAL .ADLTx ∧
      b'._nbIndividuals .FEM = p.size .FEM .ADLTx ∧
      1 ≤ p.size .MAL .ADLTx ∧ 1 ≤ p.size .FEM .ADLTx := by
  unfold isMatingPossible_2_sex at h
  simp only [Prod.mk.injEq] at h
  obtain ⟨hb, _, hflag⟩ := h
  subst hb
  refine ⟨by simp [LCE_Breed.set_nbIndividuals], by simp [LCE_Breed.set_nbIndividuals], ?_, ?_⟩
  · by_contra hM
    have hM0 : p.size .MAL .ADLTx = 0 := by omega
    simp [LCE_Breed.set_nbIndividuals, hM0] at hflag
  · by_contra hF
    have hF0 : p.size .FEM .ADLTx = 0 := by omega
    simp [LCE_Breed.set_nbIndividuals, hF0] at hflag

theorem uadd_cast_ne_zero (x y : ℕ) (hpos : 1 ≤ x + y) (hsum : x + y < 2 ^ 32) :
    ((uadd x y : ℕ) : ℚ) ≠ 0 := by
  rw [uadd_cast_of_lt x y hsum]
  have h : (1 : ℚ) ≤ (x : ℚ) + (y : ℚ) := by exact_mod_cast hpos
  linarith

/-- The element at a position, put in front of the list without that position, is
a rearrangement of the list. -/
theorem perm_cons_eraseIdx_of_getElem? {α : Type} (l : List α) (i : ℕ) (a : α)
    (h : l[i]? = some a) : List.Perm (a :: l.eraseIdx i) l := by
  induction l generalizing i with
  | nil => simp at h
  | cons x t ih =>
    cases i with
    | zero =>
      simp only [List.getElem?_cons_zero, Option.some.injEq] at h
      subst h
      exact List.Perm.refl _
    | succ j =>
      simp only [List.getElem?_cons_succ] at h
      have h1 := ih j h
      exact (List.Perm.swap x a (t.eraseIdx j)).trans (List.Perm.cons x h1)

theorem draw_pairs_succ_some (draw : ℕ → ℕ × ℕ) (n : ℕ) (males females : List Individual)
    (m f : Individual) (hm : males[(draw n).1 % males.length]? = some m)
    (hf : females[(draw n).2 % females.length]? = some f) :
    draw_pairs draw (n + 1) males females
      = (m, f) :: draw_pairs draw n (males.eraseIdx ((draw n).1 % males.length))
          (females.eraseIdx ((draw n).2 % females.length)) := by
  simp only [draw_pairs, hm, hf]

/-- As long as both pools hold `n` individuals, `n` pairs are drawn. -/
theorem draw_pairs_length (draw : ℕ → ℕ × ℕ) (n : ℕ) (males females : List Individual)
    (hm : n ≤ males.length) (hf : n ≤ females.length) :
    (draw_pairs draw n males females).length = n := by
  induction n generalizing males females with
  | zero => simp [draw_pairs]
  | succ k ih =>
    have hi : (draw k).1 % males.length < males.length := Nat.mod_lt _ (by omega)
    have hj : (draw k).2 % females.length < females.length := Nat.mod_lt _ (by omega)
    rw [draw_pairs_succ_some draw k males females _ _ (List.getElem?_eq_getElem hi)
      (List.getElem?_eq_getElem hj), List.length_cons, ih]
    · rw [List.length_eraseIdx_of_lt hi]
      omega
    · rw [List.length_eraseIdx_of_lt hj]
      omega

/-- The males and the females of the drawn pairs are taken from the pools without
repetition of a position. -/
theorem draw_pairs_subperm (draw : ℕ → ℕ × ℕ) (n : ℕ) (males females : List Individual) :
    List.Subperm ((draw_pairs draw n males females).map Prod.fst) males ∧
      List.Subperm ((draw_pairs draw n males females).map Prod.snd) females := by
  induction n generalizing males females with
  | zero => simp [draw_pairs, List.nil_subperm]
  | succ k ih =>
    cases hm : males[(draw k).1 % males.length]? with
    | none => simp [draw_pairs, hm, List.nil_subperm]
    | some m =>
      cases hf : females[(draw k).2 % females.length]? with
      | none => simp [draw_pairs, hm, hf, List.nil_subperm]
      | some f =>
        rw [draw_pairs_succ_some draw k males females m f hm hf]
        obtain ⟨h1, h2⟩ := ih (males.eraseIdx ((draw k).1 % males.length))
          (females.eraseIdx ((draw k).2 % females.length))
        simp only [List.map_cons]
        exact ⟨((List.subperm_cons m).mpr h1).trans
            (perm_cons_eraseIdx_of_getElem? males _ m hm).subperm,
          ((List.subperm_cons f).mpr h2).trans
            (perm_cons_eraseIdx_of_getElem? females _ f hf).subperm⟩

theorem nodup_of_subperm {α : Type} (l₁ l₂ : List α) (h : List.Subperm l₁ l₂)
    (hd : l₂.Nodup) : l₁.Nodup := by
  obtain ⟨l, hp, hs⟩ := h
  exact (hp.nodup_iff).mp (hd.sublist hs)

/-! ## Theorems on the hook, the cached counts and the pairing -/

/-- C14: the hook run before a generation applies the adjustment to the adults if
and only if the generation is 1 and a threshold is configured; over the hook
calls of generations `1, ..., G` with `G ≥ 1` and a configured threshold the
adjustment is applied exactly once, and without a configured threshold the
hook, and every run of hooks, changes nothing. The third part counts the
applications with an adjustment that increments a counter. -/
theorem executeBeforeEachGeneration_once {σ : Type} (my_NAN : ℚ)
    (reset : age_idx → σ → σ) (b : LCE_Breed) (gen : ℤ) (G : ℕ) (pop : σ) :
    (gen = 1 ∧ b._threshold ≠ my_NAN →
      executeBeforeEachGeneration my_NAN reset b gen pop = reset .ADLTx pop) ∧
    (¬ (gen = 1 ∧ b._threshold ≠ my_NAN) →
      executeBeforeEachGeneration my_NAN reset b gen pop = pop) ∧
    (executeBeforeEachGeneration my_NAN (fun _ (n : ℕ) => n + 1) b gen 0 = 1 ↔
      gen = 1 ∧ b._threshold ≠ my_NAN) ∧
    (b._threshold ≠ my_NAN → 1 ≤ G →
      run_generation_hooks my_NAN reset b G pop = reset .ADLTx pop ∧
      run_generation_hooks my_NAN (fun _ (n : ℕ) => n + 1) b G 0 = 1) ∧
    (b._threshold = my_NAN →
      executeBeforeEachGeneration my_NAN reset b gen pop = pop ∧
      run_generation_hooks my_NAN reset b G pop = pop) := by
  refine ⟨?_, ?_, ?_, ?_, ?_⟩
  · intro h
    unfold executeBeforeEachGeneration
    rw [if_pos h]
  · intro h
    unfold executeBeforeEachGeneration
    rw [if_neg h]
  · unfold executeBeforeEachGeneration
    by_cases h : gen = 1 ∧ b._threshold ≠ my_NAN
    · rw [if_pos h]
      exact ⟨fun _ => h, fun _ => rfl⟩
    · rw [if_neg h]
      exact ⟨fun h0 => absurd h0 (by norm_num), fun h1 => absurd h1 h⟩
  · intro hT hG
    exact ⟨run_generation_hooks_configured my_NAN reset b G pop hT hG,
      run_generation_hooks_configured my_NAN (fun _ (n : ℕ) => n + 1) b G 0 hT hG⟩
  · intro hT
    exact ⟨executeBeforeEachGeneration_of_NAN my_NAN reset b gen pop hT,
      foldl_hooks_of_NAN my_NAN reset b hT _ pop⟩

/-- Witness of C14: a run of five generations with threshold `1/2`, `my_NAN` being
`-9999`: the counting adjustment is applied once. -/
theorem executeBeforeEachGeneration_once_witness :
    run_generation_hooks (-9999) (fun _ (n : ℕ) => n + 1) ⟨1 / 2, 3, 1 / 2, fun _ => 0⟩ 5 0 = 1 :=
  ((executeBeforeEachGeneration_once (-9999) (fun _ (n : ℕ) => n + 1)
    ⟨1 / 2, 3, 1 / 2, fun _ => 0⟩ 1 5 0).2.2.2.1 (by norm_num) (by norm_num)).2

/-- C15: monogamous pairing forms exactly `min (#adult males) (#adult females)`
pairs for every patch, the males of the pairs are drawn from the adult males
and the females from the adult females without using a position twice, so
that no individual of a patch without duplicates appears in two pairs; 2
males and 5 females give 2 pairs and leave 3 females unpaired. -/
theorem create_mating_pairs_monogamous (draw : ℕ → ℕ × ℕ) (p : Patch) :
    (create_mating_pairs draw p).2 = min (p.size .MAL .ADLTx) (p.size .FEM .ADLTx) ∧
    (create_mating_pairs draw p).1.length = min (p.size .MAL .ADLTx) (p.size .FEM .ADLTx) ∧
    List.Subperm ((create_mating_pairs draw p).1.map Prod.fst) (p.get .MAL .ADLTx) ∧
    List.Subperm ((create_mating_pairs draw p).1.map Prod.snd) (p.get .FEM .ADLTx) ∧
    ((p.get .MAL .ADLTx).Nodup → ((create_mating_pairs draw p).1.map Prod.fst).Nodup) ∧
    ((p.get .FEM .ADLTx).Nodup → ((create_mating_pairs draw p).1.map Prod.snd).Nodup) ∧
    (p.size .MAL .ADLTx = 2 → p.size .FEM .ADLTx = 5 →
      (create_mating_pairs draw p).1.length = 2 ∧
      p.size .FEM .ADLTx - (create_mating_pairs draw p).1.length = 3) := by
  have hlen : (create_mating_pairs draw p).1.length
      = min (p.size .MAL .ADLTx) (p.size .FEM .ADLTx) := by
    unfold create_mating_pairs
    exact draw_pairs_length draw _ _ _ (Nat.min_le_left _ _) (Nat.min_le_right _ _)
  have hsub := draw_pairs_subperm draw (min (p.size .MAL .ADLTx) (p.size .FEM .ADLTx))
    (p.get .MAL .ADLTx) (p.get .FEM .ADLTx)
  refine ⟨rfl, hlen, hsub.1, hsub.2, ?_, ?_, ?_⟩
  · exact fun hd => nodup_of_subperm _ _ hsub.1 hd
  · exact fun hd => nodup_of_subperm _ _ hsub.2 hd
  · intro hM hF
    rw [hlen, hM, hF]
    exact ⟨rfl, rfl⟩

/-- Witness of C15: males 1 and 2, females 3 to 7, and some sequence of draws. -/
theorem create_mating_pairs_monogamous_witness :
    ((create_mating_pairs (fun k => (k + 3, 2 * k + 1)) ⟨[], [], [1, 2], [3, 4, 5, 6, 7]⟩).1.map
        Prod.fst).Nodup ∧
    ((create_mating_pairs (fun k => (k + 3, 2 * k + 1)) ⟨[], [], [1, 2], [3, 4, 5, 6, 7]⟩).1.map
        Prod.snd).Nodup ∧
    (create_mating_pairs (fun k => (k + 3, 2 * k + 1)) ⟨[], [], [1, 2], [3, 4, 5, 6, 7]⟩).1.length
        = 2 ∧
    Patch.size ⟨[], [], [1, 2], [3, 4, 5, 6, 7]⟩ .FEM .ADLTx
      - (create_mating_pairs (fun k => (k + 3, 2 * k + 1))
          ⟨[], [], [1, 2], [3, 4, 5, 6, 7]⟩).1.length = 3 :=
  have h := create_mating_pairs_monogamous (fun k => (k + 3, 2 * k + 1))
    ⟨[], [], [1, 2], [3, 4, 5, 6, 7]⟩
  ⟨h.2.2.2.2.1 (by decide), h.2.2.2.2.2.1 (by decide), (h.2.2.2.2.2.2 rfl rfl).1,
    (h.2.2.2.2.2.2 rfl rfl).2⟩

/-- C17: whenever a feasibility check returns true, the cached counts satisfy
`_nbIndividuals[MAL] + _nbIndividuals[FEM] ≥ 1`, and the divisor
`nbMAL + nbFEM` that the proportional split and the proportional draw compute
from the cached counts is not zero, the number of adults of the patch being
an `unsigned int`. -/
theorem feasible_divisor_nonzero (b b' : LCE_Breed) (p p' : Patch) :
    (isMatingPossbile_1_sex b p = some (b', p', true) →
      1 ≤ b'._nbIndividuals .MAL + b'._nbIndividuals .FEM ∧
      (p.size .MAL .ADLTx + p.size .FEM .ADLTx < 2 ^ 32 →
        ((uadd (b'._nbIndividuals .MAL) (b'._nbIndividuals .FEM) : ℕ) : ℚ) ≠ 0)) ∧
    (isMatingPossible_2_sex b p = (b', p', true) →
      1 ≤ b'._nbIndividuals .MAL + b'._nbIndividuals .FEM ∧
      (p.size .MAL .ADLTx + p.size .FEM .ADLTx < 2 ^ 32 →
        ((uadd (b'._nbIndividuals .MAL) (b'._nbIndividuals .FEM) : ℕ) : ℚ) ≠ 0)) := by
  constructor
  · intro h
    obtain ⟨hM, hF, hF1⟩ := one_sex_feasible_counts b b' p p' h
    refine ⟨by omega, fun hsum => ?_⟩
    exact uadd_cast_ne_zero _ _ (by omega) (by omega)
  · intro h
    obtain ⟨hM, hF, hM1, hF1⟩ := two_sex_feasible_counts b b' p p' h
    refine ⟨by omega, fun hsum => ?_⟩
    exact uadd_cast_ne_zero _ _ (by omega) (by omega)

/-- Witness of C17: the two-sex check on a patch of two adult males and three adult
females. -/
theorem feasible_divisor_nonzero_witness :
    1 ≤ (isMatingPossible_2_sex ⟨0, 3, 1 / 2, fun _ => 9⟩
          ⟨[7], [8], [1, 2], [3, 4, 5]⟩).1._nbIndividuals .MAL
        + (isMatingPossible_2_sex ⟨0, 3, 1 / 2, fun _ => 9⟩
          ⟨[7], [8], [1, 2], [3, 4, 5]⟩).1._nbIndividuals .FEM ∧
    ((uadd ((isMatingPossible_2_sex ⟨0, 3, 1 / 2, fun _ => 9⟩
          ⟨[7], [8], [1, 2], [3, 4, 5]⟩).1._nbIndividuals .MAL)
        ((isMatingPossible_2_sex ⟨0, 3, 1 / 2, fun _ => 9⟩
          ⟨[7], [8], [1, 2], [3, 4, 5]⟩).1._nbIndividuals .FEM) : ℕ) : ℚ) ≠ 0 :=
  have h := (feasible_divisor_nonzero ⟨0, 3, 1 / 2, fun _ => 9⟩
    (isMatingPossible_2_sex ⟨0, 3, 1 / 2, fun _ => 9⟩ ⟨[7], [8], [1, 2], [3, 4, 5]⟩).1
    ⟨[7], [8], [1, 2], [3, 4, 5]⟩ ⟨[], [], [1, 2], [3, 4, 5]⟩).2
    (by simp [isMatingPossible_2_sex, LCE_Breed.set_nbIndividuals, Patch.size, Patch.get,
      Patch.size_age, Patch.flush])
  ⟨h.1, h.2 (by norm_num [Patch.size, Patch.get])⟩

end QuantiNemo
